import Mathlib

/-!
Verification of the GFFx GFF3 indexing and query engine against its
specification.  The Rust sources are shallowly embedded: pure functions become
Lean functions over `Nat` (all coordinates in the program are `u32` values that
are only compared and subtracted, never wrapped), fallible code returns
`Except`/`Option`, and the few stateful loops become explicit folds.

Conventions used throughout:
* `u32` coordinate values are modelled as `Nat`; the program parses them with
  checked arithmetic, so every value is `< 2^32` and no wrap-around occurs.
* Rust's stable `sort_by_key` is modelled by the stable insertion sort
  `sortByKey` below (any two stable sorts by the same key agree).
* byte buffers are modelled as lists; a text file is modelled as the list of
  its newline-terminated lines.
-/

namespace GFFx

/-- `u32::MAX`, the sentinel used by the sources for "invalid"/"absent". -/
def U32MAX : Nat := 4294967295

/-- Stable insertion of `a` into `l` (equal keys: `a` goes after). -/
def insertByKey (key : α → Nat) (a : α) : List α → List α
  | [] => [a]
  | b :: l => if key a < key b then a :: b :: l else b :: insertByKey key a l

/-- Stable sort by a `Nat` key; models Rust's stable `sort_by_key`. -/
def sortByKey (key : α → Nat) (l : List α) : List α :=
  l.foldr (insertByKey key) []

theorem insertByKey_perm (key : α → Nat) (a : α) (l : List α) :
    (insertByKey key a l).Perm (a :: l) := by
  induction l with
  | nil => simp [insertByKey]
  | cons b t ih =>
      by_cases h : key a < key b
      · simp [insertByKey, h]
      · simp only [insertByKey, if_neg h]
        exact ((ih.cons b).trans (List.Perm.swap a b t))

theorem sortByKey_perm (key : α → Nat) (l : List α) : (sortByKey key l).Perm l := by
  induction l with
  | nil => simp [sortByKey]
  | cons a t ih =>
      simp only [sortByKey, List.foldr_cons]
      exact (insertByKey_perm key a _).trans (ih.cons a)

theorem mem_sortByKey (key : α → Nat) (l : List α) (x : α) :
    x ∈ sortByKey key l ↔ x ∈ l :=
  (sortByKey_perm key l).mem_iff

theorem insertByKey_sorted (key : α → Nat) (a : α) (l : List α)
    (h : l.Pairwise (fun x y => key x ≤ key y)) :
    (insertByKey key a l).Pairwise (fun x y => key x ≤ key y) := by
  induction l with
  | nil => simp [insertByKey]
  | cons b t ih =>
      rcases List.pairwise_cons.mp h with ⟨hb, ht⟩
      by_cases hab : key a < key b
      · simp only [insertByKey, if_pos hab]
        refine List.pairwise_cons.mpr ⟨?_, h⟩
        intro x hx
        rcases List.mem_cons.mp hx with hx | hx
        · subst hx; exact Nat.le_of_lt hab
        · exact Nat.le_trans (Nat.le_of_lt hab) (hb _ hx)
      · simp only [insertByKey, if_neg hab]
        refine List.pairwise_cons.mpr ⟨?_, ih ht⟩
        intro x hx
        have hx2 := (insertByKey_perm key a t).mem_iff.mp hx
        rcases List.mem_cons.mp hx2 with hx2 | hx2
        · subst hx2; exact Nat.le_of_not_lt hab
        · exact hb _ hx2

theorem sortByKey_sorted (key : α → Nat) (l : List α) :
    (sortByKey key l).Pairwise (fun x y => key x ≤ key y) := by
  induction l with
  | nil => simp [sortByKey]
  | cons a t ih => exact insertByKey_sorted key a _ ih

/-! ## Centered interval tree

From `src/utils/serial_interval_trees.rs` (the implementation exported by
`lib.rs` and used by the intersect query) and `src/utils/tree.rs` (the variant
taking an `out` buffer).  Both share the same `build`; they differ in the
emission predicate of `query_interval_rec`.  The `end` field of the Rust
`Interval` struct is called `stop` here (`end` is a Lean keyword). -/

structure Interval where
  start : Nat
  stop : Nat
  root_fid : Nat
  deriving DecidableEq, Repr

instance : Inhabited Interval := ⟨⟨0, 0, 0⟩⟩

inductive IntervalTree where
  | nil : IntervalTree
  | node (center : Nat) (intervals : List Interval) (l r : IntervalTree) : IntervalTree
  deriving DecidableEq, Repr

/-- One recursion step of `IntervalTree::build`: sort by `start`, take the
middle element's `start` as center, partition by the source's
`if end < center / else if start > center / else` chain.  The structural
recursion of the Rust code is reproduced with explicit fuel; `IntervalTree.new`
supplies `ivs.length`, which suffices whenever every interval has
`start ≤ end` (the builder only ever stores such intervals). -/
def sortedIvs (ivs : List Interval) : List Interval :=
  sortByKey (fun iv => iv.start) ivs

/-- `center = intervals[len/2].start` of the sorted list. -/
def buildCenter (ivs : List Interval) : Nat :=
  ((sortedIvs ivs).getD ((sortedIvs ivs).length / 2) default).start

/-- First branch of the partition chain: `iv.end < center`. -/
def leftPart (ivs : List Interval) : List Interval :=
  (sortedIvs ivs).filter (fun iv => decide (iv.stop < buildCenter ivs))

/-- Second branch: `iv.start > center` (reached when the first fails). -/
def rightPart (ivs : List Interval) : List Interval :=
  (sortedIvs ivs).filter
    (fun iv => !decide (iv.stop < buildCenter ivs)
      && decide (buildCenter ivs < iv.start))

/-- Final `else` branch: intervals covering the center. -/
def centerPart (ivs : List Interval) : List Interval :=
  (sortedIvs ivs).filter
    (fun iv => !decide (iv.stop < buildCenter ivs)
      && !decide (buildCenter ivs < iv.start))

def IntervalTree.buildFuel : Nat → List Interval → IntervalTree
  | _, [] => .nil
  | 0, _ :: _ => .nil
  | fuel + 1, iv0 :: rest =>
      .node (buildCenter (iv0 :: rest)) (centerPart (iv0 :: rest))
        (IntervalTree.buildFuel fuel (leftPart (iv0 :: rest)))
        (IntervalTree.buildFuel fuel (rightPart (iv0 :: rest)))

/-- `IntervalTree::new`. -/
def IntervalTree.new (ivs : List Interval) : IntervalTree :=
  IntervalTree.buildFuel ivs.length ivs

/-- All intervals stored in a tree, in node-first traversal order. -/
def IntervalTree.elems : IntervalTree → List Interval
  | .nil => []
  | .node _ ivs l r => ivs ++ l.elems ++ r.elems

/-- Emission predicate of `serial_interval_trees.rs::query_interval_rec`:
`iv.start <= end && iv.end >= start` (closed at both bounds). -/
def condSerial (s e : Nat) (iv : Interval) : Bool :=
  decide (iv.start ≤ e) && decide (s ≤ iv.stop)

/-- Emission predicate of `tree.rs::query_interval_rec`:
`iv.start < end && iv.end > start` (half-open). -/
def condHalfOpen (s e : Nat) (iv : Interval) : Bool :=
  decide (iv.start < e) && decide (s < iv.stop)

/-- `serial_interval_trees.rs` `query_interval` / `query_interval_rec`. -/
def IntervalTree.queryIntervalSerial : IntervalTree → Nat → Nat → List Interval
  | .nil, _, _ => []
  | .node c ivs l r, s, e =>
      ivs.filter (condSerial s e)
        ++ (if s < c then l.queryIntervalSerial s e else [])
        ++ (if c < e then r.queryIntervalSerial s e else [])

/-- `tree.rs` `query_interval` / `query_interval_rec`. -/
def IntervalTree.queryIntervalHalfOpen : IntervalTree → Nat → Nat → List Interval
  | .nil, _, _ => []
  | .node c ivs l r, s, e =>
      ivs.filter (condHalfOpen s e)
        ++ (if s < c then l.queryIntervalHalfOpen s e else [])
        ++ (if c < e then r.queryIntervalHalfOpen s e else [])

/-- Structural invariant established by `build`: every interval in the left
subtree ends strictly before the node's center, every interval in the right
subtree starts strictly after it. -/
inductive TreeInv : IntervalTree → Prop
  | nil : TreeInv .nil
  | node {c : Nat} {ivs : List Interval} {l r : IntervalTree} :
      (∀ iv ∈ l.elems, iv.stop < c) →
      (∀ iv ∈ r.elems, c < iv.start) →
      TreeInv l → TreeInv r → TreeInv (.node c ivs l r)

theorem filter_not_and_filter_perm (p : α → Bool) (l : List α) :
    (l.filter p ++ l.filter (fun a => !p a)).Perm l :=
  List.filter_append_perm p l

/-- The partition step loses no interval: node list ++ left part ++ right part
is a permutation of the sorted input. -/
theorem partition_perm (p q : α → Bool) (l : List α) :
    (l.filter (fun a => !p a && !q a) ++ l.filter p
      ++ l.filter (fun a => !p a && q a)).Perm l := by
  have h1 : (l.filter p ++ l.filter (fun a => !p a)).Perm l :=
    List.filter_append_perm p l
  have h2 : ((l.filter (fun a => !p a)).filter q
      ++ (l.filter (fun a => !p a)).filter (fun a => !q a)).Perm
      (l.filter (fun a => !p a)) :=
    List.filter_append_perm q _
  have e1 : (l.filter (fun a => !p a)).filter q = l.filter (fun a => !p a && q a) := by
    rw [List.filter_filter]
    congr 1
    funext a
    rw [Bool.and_comm]
  have e2 : (l.filter (fun a => !p a)).filter (fun a => !q a)
      = l.filter (fun a => !p a && !q a) := by
    rw [List.filter_filter]
    congr 1
    funext a
    rw [Bool.and_comm]
  rw [e1, e2] at h2
  refine List.Perm.trans ?_ h1
  refine List.Perm.trans (List.perm_append_comm.append_right _) ?_
  rw [List.append_assoc]
  refine List.Perm.append_left _ ?_
  exact List.Perm.trans List.perm_append_comm h2

/-- The middle element of the sorted list lands in the center list whenever
intervals are well-formed (`start ≤ end`). -/
theorem center_elem_stays (ivs : List Interval) (hne : ivs ≠ [])
    (hwf : ∀ iv ∈ ivs, iv.start ≤ iv.stop) :
    ∃ m ∈ sortedIvs ivs, m.start = buildCenter ivs ∧ m.start ≤ m.stop := by
  have hlen : (sortedIvs ivs).length = ivs.length :=
    (sortByKey_perm _ ivs).length_eq
  have hpos : 0 < (sortedIvs ivs).length := by
    rw [hlen]
    exact List.length_pos.mpr hne
  have hmid : (sortedIvs ivs).length / 2 < (sortedIvs ivs).length :=
    Nat.div_lt_self hpos (by omega)
  refine ⟨(sortedIvs ivs).getD ((sortedIvs ivs).length / 2) default, ?_, ?_, ?_⟩
  · rw [List.getD_eq_getElem _ _ hmid]
    exact List.getElem_mem hmid
  · rfl
  · apply hwf
    rw [← mem_sortByKey (fun iv => iv.start) ivs]
    rw [List.getD_eq_getElem _ _ hmid]
    exact List.getElem_mem hmid

theorem leftPart_length_lt (ivs : List Interval) (hne : ivs ≠ [])
    (hwf : ∀ iv ∈ ivs, iv.start ≤ iv.stop) :
    (leftPart ivs).length < ivs.length := by
  obtain ⟨m, hm, hmc, hmwf⟩ := center_elem_stays ivs hne hwf
  have hkey : ¬ (decide (m.stop < buildCenter ivs) = true) := by
    rw [← hmc]
    simp
    omega
  calc (leftPart ivs).length
      = ((sortedIvs ivs).filter
          (fun iv => decide (iv.stop < buildCenter ivs))).length := rfl
    _ < (sortedIvs ivs).length :=
        List.length_filter_lt_length_iff_exists.mpr ⟨m, hm, hkey⟩
    _ = ivs.length := (sortByKey_perm _ ivs).length_eq

theorem rightPart_length_lt (ivs : List Interval) (hne : ivs ≠ [])
    (hwf : ∀ iv ∈ ivs, iv.start ≤ iv.stop) :
    (rightPart ivs).length < ivs.length := by
  obtain ⟨m, hm, hmc, hmwf⟩ := center_elem_stays ivs hne hwf
  have hkey : ¬ ((!decide (m.stop < buildCenter ivs)
      && decide (buildCenter ivs < m.start)) = true) := by
    rw [← hmc]
    simp
  calc (rightPart ivs).length
      = ((sortedIvs ivs).filter
          (fun iv => !decide (iv.stop < buildCenter ivs)
            && decide (buildCenter ivs < iv.start))).length := rfl
    _ < (sortedIvs ivs).length :=
        List.length_filter_lt_length_iff_exists.mpr ⟨m, hm, hkey⟩
    _ = ivs.length := (sortByKey_perm _ ivs).length_eq

theorem mem_leftPart_wf (ivs : List Interval)
    (hwf : ∀ iv ∈ ivs, iv.start ≤ iv.stop) :
    ∀ iv ∈ leftPart ivs, iv.start ≤ iv.stop := fun iv hmem =>
  hwf iv ((mem_sortByKey _ _ iv).mp (List.mem_filter.mp hmem).1)

theorem mem_rightPart_wf (ivs : List Interval)
    (hwf : ∀ iv ∈ ivs, iv.start ≤ iv.stop) :
    ∀ iv ∈ rightPart ivs, iv.start ≤ iv.stop := fun iv hmem =>
  hwf iv ((mem_sortByKey _ _ iv).mp (List.mem_filter.mp hmem).1)

/-- The partition is a permutation of the input. -/
theorem parts_perm (ivs : List Interval) :
    (centerPart ivs ++ leftPart ivs ++ rightPart ivs).Perm ivs := by
  refine List.Perm.trans ?_ (sortByKey_perm (fun iv => iv.start) ivs)
  exact partition_perm (fun iv => decide (iv.stop < buildCenter ivs))
    (fun iv => decide (buildCenter ivs < iv.start)) (sortedIvs ivs)

/-- `build` stores exactly the input intervals (as a multiset). -/
theorem elems_buildFuel (fuel : Nat) :
    ∀ (ivs : List Interval), (∀ iv ∈ ivs, iv.start ≤ iv.stop) →
      ivs.length ≤ fuel →
      ((IntervalTree.buildFuel fuel ivs).elems).Perm ivs := by
  induction fuel with
  | zero =>
      intro ivs hwf hfuel
      have : ivs = [] := List.length_eq_zero.mp (Nat.le_zero.mp hfuel)
      subst this
      simp [IntervalTree.buildFuel, IntervalTree.elems]
  | succ fuel ih =>
      intro ivs hwf hfuel
      match ivs, hwf, hfuel with
      | [], _, _ => simp [IntervalTree.buildFuel, IntervalTree.elems]
      | iv0 :: rest, hwf, hfuel =>
        have hne : iv0 :: rest ≠ [] := by simp
        rw [IntervalTree.buildFuel]
        simp only [IntervalTree.elems]
        have hlenL : (leftPart (iv0 :: rest)).length ≤ fuel := by
          have := leftPart_length_lt (iv0 :: rest) hne hwf
          simp only [List.length_cons] at this hfuel
          omega
        have hlenR : (rightPart (iv0 :: rest)).length ≤ fuel := by
          have := rightPart_length_lt (iv0 :: rest) hne hwf
          simp only [List.length_cons] at this hfuel
          omega
        have pl := ih _ (mem_leftPart_wf _ hwf) hlenL
        have pr := ih _ (mem_rightPart_wf _ hwf) hlenR
        refine List.Perm.trans (((List.Perm.refl
          (centerPart (iv0 :: rest))).append pl).append pr) ?_
        exact parts_perm (iv0 :: rest)

/-- `build` establishes the centered-tree structural invariant. -/
theorem treeInv_buildFuel (fuel : Nat) :
    ∀ (ivs : List Interval), (∀ iv ∈ ivs, iv.start ≤ iv.stop) →
      ivs.length ≤ fuel →
      TreeInv (IntervalTree.buildFuel fuel ivs) := by
  induction fuel with
  | zero =>
      intro ivs hwf hfuel
      have : ivs = [] := List.length_eq_zero.mp (Nat.le_zero.mp hfuel)
      subst this
      exact TreeInv.nil
  | succ fuel ih =>
      intro ivs hwf hfuel
      match ivs, hwf, hfuel with
      | [], _, _ => exact TreeInv.nil
      | iv0 :: rest, hwf, hfuel =>
        have hne : iv0 :: rest ≠ [] := by simp
        rw [IntervalTree.buildFuel]
        have hlenL : (leftPart (iv0 :: rest)).length ≤ fuel := by
          have := leftPart_length_lt (iv0 :: rest) hne hwf
          simp only [List.length_cons] at this hfuel
          omega
        have hlenR : (rightPart (iv0 :: rest)).length ≤ fuel := by
          have := rightPart_length_lt (iv0 :: rest) hne hwf
          simp only [List.length_cons] at this hfuel
          omega
        refine TreeInv.node ?_ ?_ (ih _ (mem_leftPart_wf _ hwf) hlenL)
          (ih _ (mem_rightPart_wf _ hwf) hlenR)
        · intro iv hmem
          have h1 := (elems_buildFuel fuel _ (mem_leftPart_wf _ hwf)
            hlenL).mem_iff.mp hmem
          have h2 := (List.mem_filter.mp h1).2
          simpa using h2
        · intro iv hmem
          have h1 := (elems_buildFuel fuel _ (mem_rightPart_wf _ hwf)
            hlenR).mem_iff.mp hmem
          have h2 := (List.mem_filter.mp h1).2
          simp at h2
          omega

/-- On any tree satisfying the invariant, the serial (closed-bounds) range
query returns exactly the stored intervals with
`iv.start ≤ e ∧ s ≤ iv.end`. -/
theorem queryIntervalSerial_eq_filter (t : IntervalTree) (h : TreeInv t)
    (s e : Nat) :
    t.queryIntervalSerial s e = t.elems.filter (condSerial s e) := by
  induction h with
  | nil => rfl
  | @node c ivs l r hl hr hL hR ihl ihr =>
      simp only [IntervalTree.queryIntervalSerial, IntervalTree.elems,
        List.filter_append]
      have hfl : ¬ s < c → (l.elems.filter (condSerial s e)) = [] := by
        intro hsc
        refine List.filter_eq_nil_iff.mpr (fun iv hiv => ?_)
        have := hl iv hiv
        simp [condSerial]
        omega
      have hfr : ¬ c < e → (r.elems.filter (condSerial s e)) = [] := by
        intro hce
        refine List.filter_eq_nil_iff.mpr (fun iv hiv => ?_)
        have := hr iv hiv
        simp [condSerial]
        omega
      by_cases hsc : s < c <;> by_cases hce : c < e <;>
        simp [hsc, hce, ihl, ihr, hfl, hfr]

/-- On any tree satisfying the invariant, the `tree.rs` (half-open) range
query returns exactly the stored intervals with
`iv.start < e ∧ iv.end > s`. -/
theorem queryIntervalHalfOpen_eq_filter (t : IntervalTree) (h : TreeInv t)
    (s e : Nat) :
    t.queryIntervalHalfOpen s e = t.elems.filter (condHalfOpen s e) := by
  induction h with
  | nil => rfl
  | @node c ivs l r hl hr hL hR ihl ihr =>
      simp only [IntervalTree.queryIntervalHalfOpen, IntervalTree.elems,
        List.filter_append]
      have hfl : ¬ s < c → (l.elems.filter (condHalfOpen s e)) = [] := by
        intro hsc
        refine List.filter_eq_nil_iff.mpr (fun iv hiv => ?_)
        have := hl iv hiv
        simp [condHalfOpen]
        omega
      have hfr : ¬ c < e → (r.elems.filter (condHalfOpen s e)) = [] := by
        intro hce
        refine List.filter_eq_nil_iff.mpr (fun iv hiv => ?_)
        have := hr iv hiv
        simp [condHalfOpen]
        omega
      by_cases hsc : s < c <;> by_cases hce : c < e <;>
        simp [hsc, hce, ihl, ihr, hfl, hfr]

/-- C3 (amended): for every tree built from well-formed intervals
(`start ≤ end`) and every query range `[s,e)`, the `tree.rs` range query
returns exactly (up to traversal order) the stored intervals with
`iv.start < e ∧ iv.end > s`; the `serial_interval_trees.rs` range query — the
one exported by `lib.rs` — instead returns exactly the stored intervals with
`iv.start ≤ e ∧ iv.end ≥ s` (closed comparisons at both bounds). -/
theorem c3_interval_tree_query_exact (ivs : List Interval)
    (hwf : ∀ iv ∈ ivs, iv.start ≤ iv.stop) (s e : Nat) :
    ((IntervalTree.new ivs).queryIntervalHalfOpen s e).Perm
        (ivs.filter (condHalfOpen s e))
    ∧ ((IntervalTree.new ivs).queryIntervalSerial s e).Perm
        (ivs.filter (condSerial s e)) := by
  have hinv := treeInv_buildFuel ivs.length ivs hwf (Nat.le_refl _)
  have helems := elems_buildFuel ivs.length ivs hwf (Nat.le_refl _)
  constructor
  · rw [IntervalTree.new, queryIntervalHalfOpen_eq_filter _ hinv]
    exact helems.filter _
  · rw [IntervalTree.new, queryIntervalSerial_eq_filter _ hinv]
    exact helems.filter _

/-- C3 counterexample: the exported range query (`serial_interval_trees.rs`,
used by the intersect pipeline) violates the claimed half-open contract: for
the stored interval `[5,10]` and query `[0,5)` it returns the interval even
though `iv.start ≥ e`, i.e. its result differs from the half-open filter. -/
theorem c3_serial_query_not_half_open :
    (IntervalTree.new [⟨5, 10, 7⟩]).queryIntervalSerial 0 5 = [⟨5, 10, 7⟩]
    ∧ [Interval.mk 5 10 7].filter (condHalfOpen 0 5) = [] := by
  constructor
  · rfl
  · rfl

/-- Witness for `c3_interval_tree_query_exact` at the spec's example intervals
`g1=[100,200)`, `g2=[300,400)` and query `[150,350)`. -/
theorem c3_interval_tree_query_exact_witness :
    (∀ iv ∈ [Interval.mk 100 200 1, Interval.mk 300 400 2],
      iv.start ≤ iv.stop)
    ∧ (((IntervalTree.new [Interval.mk 100 200 1,
          Interval.mk 300 400 2]).queryIntervalHalfOpen 150 350).Perm
        ([Interval.mk 100 200 1, Interval.mk 300 400 2].filter
          (condHalfOpen 150 350))
      ∧ ((IntervalTree.new [Interval.mk 100 200 1,
          Interval.mk 300 400 2]).queryIntervalSerial 150 350).Perm
        ([Interval.mk 100 200 1, Interval.mk 300 400 2].filter
          (condSerial 150 350))) :=
  ⟨by decide, c3_interval_tree_query_exact _ (by decide) 150 350⟩


/-! ## Intersect query (`src/intersect/mod.rs`)

`query_features` buckets the input regions by sequence id, then runs the
(serial) interval-tree range query for every region of every sequence that has
a tree.  The overlap mode is computed into `_mode` and never consulted. -/

inductive OverlapMode where
  | contained
  | containsRegion
  | overlap
  deriving DecidableEq, Repr

/-- `b[chr].push((chr, start, end))` over the regions in order: the bucket of
sequence `sid` is the in-order sublist of regions on that sequence. -/
def regionBuckets (regions : List (Nat × Nat × Nat)) (sid : Nat) :
    List (Nat × Nat × Nat) :=
  regions.filter (fun r => decide (r.1 = sid))

/-- `query_features` (src/intersect/mod.rs lines 191-249).  `chrEntries` is the
per-sequence tree table (iterated in some fixed order, which is all the claim
needs), `regions` the parsed `(chr, start, end)` list.  The mode flags are
bound to `_mode` exactly as in the source — and like the source, the query
ignores them. -/
def queryFeatures (chrEntries : List (Nat × IntervalTree))
    (regions : List (Nat × Nat × Nat))
    (contained containsRegion invert : Bool) : List (Nat × Nat × Nat) :=
  let _mode : OverlapMode :=
    if contained then .contained
    else if containsRegion then .containsRegion
    else .overlap
  let _ := invert
  (chrEntries.map (fun pe =>
    ((regionBuckets regions pe.1).map (fun r =>
      ((pe.2.queryIntervalSerial r.2.1 r.2.2).map
        (fun iv => (iv.root_fid, iv.start, iv.stop))))).flatten)).flatten

/-- C1 (evaluation at the failing input): with root intervals `g1=[100,200)`
and `g2=[300,400)` on one sequence and query region `[150,350)`, the
`contained` mode (`-c`) and the `contains_region` mode (`-C`) both return BOTH
roots, exactly like the default overlap mode, although neither root interval
is contained in the region nor contains it: the mode arguments are dead. -/
theorem c1_intersect_modes_ignored :
    queryFeatures [(0, IntervalTree.new
        [Interval.mk 100 200 1, Interval.mk 300 400 2])]
      [(0, 150, 350)] true false false = [(2, 300, 400), (1, 100, 200)]
    ∧ queryFeatures [(0, IntervalTree.new
        [Interval.mk 100 200 1, Interval.mk 300 400 2])]
      [(0, 150, 350)] false true false = [(2, 300, 400), (1, 100, 200)]
    ∧ queryFeatures [(0, IntervalTree.new
        [Interval.mk 100 200 1, Interval.mk 300 400 2])]
      [(0, 150, 350)] false false false = [(2, 300, 400), (1, 100, 200)]
    ∧ ¬ (150 ≤ 100 ∧ 200 ≤ 350)
    ∧ ¬ (150 ≤ 300 ∧ 400 ≤ 350)
    ∧ ¬ (100 ≤ 150 ∧ 350 ≤ 200)
    ∧ ¬ (300 ≤ 150 ∧ 350 ≤ 400) := by
  refine ⟨rfl, rfl, rfl, by decide, by decide, by decide, by decide⟩

/-! ## Parent-chain resolver
(`gffx_v0.3.2/src/index_loader/.ipynb_checkpoints/prt-checkpoint.rs`)

`PrtMap::resolve_root` walks `cur = parent[cur]` and exits only on
`parent[cur] == cur` (root) or an out-of-range index.  The loop is modelled
with explicit fuel: `none` means the loop has not exited within `fuel`
iterations; the Rust loop runs forever exactly when the result is `none` for
every fuel. -/

def resolveRootFuel (parent : List Nat) (start : Nat) : Nat → Option (Nat × Bool)
  | 0 => none
  | fuel + 1 =>
      if parent.length ≤ start then some (U32MAX, true)
      else
        let p := parent.getD start 0
        if p = start then some (start, false)
        else if parent.length ≤ p then some (U32MAX, true)
        else resolveRootFuel parent p fuel

theorem resolveRoot_cycle_aux :
    ∀ (fuel s : Nat), s = 5 ∨ s = 6 →
      resolveRootFuel [0, 1, 2, 3, 4, 6, 5] s fuel = none := by
  intro fuel
  induction fuel with
  | zero => intro s h; rfl
  | succ fuel ih =>
      intro s h
      rcases h with h | h <;> subst h
      · simpa [resolveRootFuel, List.getD] using ih 6 (Or.inr rfl)
      · simpa [resolveRootFuel, List.getD] using ih 5 (Or.inl rfl)

/-- C2 (evaluation at the failing input): with the cyclic parent array
`parent[5] = 6, parent[6] = 5` (N = 7), `PrtMap::resolve_root(5)` never exits
its loop — after any number of iterations it has neither produced a root nor
the invalid sentinel, i.e. the resolver loops forever instead of classifying
the cycle as invalid. -/
theorem c2_resolve_root_diverges_on_cycle (fuel : Nat) :
    resolveRootFuel [0, 1, 2, 3, 4, 6, 5] 5 fuel = none :=
  resolveRoot_cycle_aux fuel 5 (Or.inl rfl)


/-! ## Point sets of half-open interval lists -/

/-- The set of (byte/coordinate) positions covered by a list of half-open
`(start, end)` ranges. -/
def ivSet (l : List (Nat × Nat)) : Finset ℕ :=
  l.foldr (fun c acc => Finset.Ico c.1 c.2 ∪ acc) ∅

theorem ivSet_nil : ivSet [] = ∅ := rfl

theorem ivSet_cons (c : Nat × Nat) (l : List (Nat × Nat)) :
    ivSet (c :: l) = Finset.Ico c.1 c.2 ∪ ivSet l := rfl

theorem mem_ivSet (x : ℕ) (l : List (Nat × Nat)) :
    x ∈ ivSet l ↔ ∃ c ∈ l, c.1 ≤ x ∧ x < c.2 := by
  induction l with
  | nil => simp [ivSet_nil]
  | cons c t ih => simp [ivSet_cons, Finset.mem_union, Finset.mem_Ico, ih]

theorem ivSet_perm {l₁ l₂ : List (Nat × Nat)} (h : l₁.Perm l₂) :
    ivSet l₁ = ivSet l₂ := by
  ext x
  rw [mem_ivSet, mem_ivSet]
  constructor
  · rintro ⟨c, hc, hx⟩; exact ⟨c, h.mem_iff.mp hc, hx⟩
  · rintro ⟨c, hc, hx⟩; exact ⟨c, h.mem_iff.mpr hc, hx⟩

theorem ivSet_append (l₁ l₂ : List (Nat × Nat)) :
    ivSet (l₁ ++ l₂) = ivSet l₁ ∪ ivSet l₂ := by
  induction l₁ with
  | nil => simp [ivSet_nil]
  | cons c t ih => simp [ivSet_cons, ih, Finset.union_assoc]

/-- Merging a sorted-in range into the running group:
`Ico cs ce ∪ Ico s e = Ico cs (max ce e)` when `cs ≤ s ≤ ce`. -/
theorem ico_union_max (cs ce s e : Nat) (h1 : cs ≤ s) (h2 : s ≤ ce) :
    Finset.Ico cs ce ∪ Finset.Ico s e = Finset.Ico cs (max ce e) := by
  ext x
  simp only [Finset.mem_union, Finset.mem_Ico]
  omega

theorem ico_disjoint_later (cs ce : Nat) (l : List (Nat × Nat))
    (h : ∀ p ∈ l, ce ≤ p.1) :
    Disjoint (Finset.Ico cs ce) (ivSet l) := by
  rw [Finset.disjoint_left]
  intro x hx hxl
  rw [Finset.mem_Ico] at hx
  obtain ⟨c, hc, hcx⟩ := (mem_ivSet x l).mp hxl
  have := h c hc
  omega

/-! ## `merge_intervals` and `union_len` (src/commands/coverage.rs) -/

/-- Loop body of `merge_intervals` after the initial element is taken:
`if s <= ce then (if e > ce then ce = e) else push (cs,ce); cs = s; ce = e`,
with the final group pushed at the end. -/
def mergeGo (cs ce : Nat) : List (Nat × Nat) → List (Nat × Nat)
  | [] => [(cs, ce)]
  | (s, e) :: rest =>
      if s ≤ ce then mergeGo cs (if ce < e then e else ce) rest
      else (cs, ce) :: mergeGo s e rest

/-- `merge_intervals`: sort by start, then sweep. -/
def mergeIntervals (ivs : List (Nat × Nat)) : List (Nat × Nat) :=
  match sortByKey (fun c => c.1) ivs with
  | [] => []
  | (cs, ce) :: rest => mergeGo cs ce rest

/-- Loop body of `union_len`:
`if s <= ce then ce = ce.max(e) else total += ce - cs; cs = s; ce = e`,
plus the final `total += ce - cs`. -/
def unionLenGo (cs ce total : Nat) : List (Nat × Nat) → Nat
  | [] => total + (ce - cs)
  | (s, e) :: rest =>
      if s ≤ ce then unionLenGo cs (max ce e) total rest
      else unionLenGo s e (total + (ce - cs)) rest

/-- `union_len`: sort by start, then sweep summing group lengths. -/
def unionLen (ivs : List (Nat × Nat)) : Nat :=
  match sortByKey (fun c => c.1) ivs with
  | [] => 0
  | (cs, ce) :: rest => unionLenGo cs ce 0 rest

theorem unionLenGo_spec :
    ∀ (rest : List (Nat × Nat)) (cs ce total : Nat),
      rest.Pairwise (fun a b => a.1 ≤ b.1) → (∀ p ∈ rest, cs ≤ p.1) →
      unionLenGo cs ce total rest
        = total + (Finset.Ico cs ce ∪ ivSet rest).card := by
  intro rest
  induction rest with
  | nil =>
      intro cs ce total _ _
      simp [unionLenGo, ivSet_nil, Nat.card_Ico]
  | cons p rest ih =>
      intro cs ce total hsorted hge
      obtain ⟨s, e⟩ := p
      rcases List.pairwise_cons.mp hsorted with ⟨hhead, htail⟩
      by_cases hse : s ≤ ce
      · rw [unionLenGo, if_pos hse]
        rw [ih cs (max ce e) total htail
          (fun p hp => Nat.le_trans (hge _ (List.mem_cons_self _ _)) (hhead p hp))]
        rw [ivSet_cons, ← Finset.union_assoc,
          ico_union_max cs ce s e (hge _ (List.mem_cons_self _ _)) hse]
      · rw [unionLenGo, if_neg hse]
        rw [ih s e (total + (ce - cs)) htail hhead]
        have hdisj : Disjoint (Finset.Ico cs ce)
            (Finset.Ico s e ∪ ivSet rest) := by
          rw [← ivSet_cons (s, e) rest]
          refine ico_disjoint_later cs ce _ ?_
          intro q hq
          rcases List.mem_cons.mp hq with hq | hq
          · subst hq; omega
          · have := hhead q hq; omega
        rw [ivSet_cons, Finset.card_union_of_disjoint hdisj, Nat.card_Ico]
        omega

/-- `union_len` computes the measure of the union of its (arbitrary,
possibly unsorted and overlapping) input intervals. -/
theorem unionLen_spec (ivs : List (Nat × Nat)) :
    unionLen ivs = (ivSet ivs).card := by
  rcases hsp : sortByKey (fun c => c.1) ivs with _ | ⟨⟨cs, ce⟩, rest⟩
  · have hivs : ivs = [] := by
      have := (sortByKey_perm (fun c => c.1) ivs).length_eq
      rw [hsp] at this
      exact List.length_eq_zero.mp this.symm
    rw [unionLen, hsp]
    simp [hivs, ivSet_nil]
  · have hperm : ((cs, ce) :: rest).Perm ivs := by
      rw [← hsp]; exact sortByKey_perm _ _
    have hsorted := sortByKey_sorted (fun c => c.1) ivs
    rw [hsp] at hsorted
    rcases List.pairwise_cons.mp hsorted with ⟨hhead, htail⟩
    rw [unionLen, hsp]
    show unionLenGo cs ce 0 rest = (ivSet ivs).card
    rw [unionLenGo_spec rest cs ce 0 htail hhead]
    rw [← ivSet_perm hperm]
    show 0 + (Finset.Ico cs ce ∪ ivSet rest).card
      = (Finset.Ico cs ce ∪ ivSet rest).card
    omega

theorem mergeGo_spec :
    ∀ (rest : List (Nat × Nat)) (cs ce : Nat),
      rest.Pairwise (fun a b => a.1 ≤ b.1) → (∀ p ∈ rest, cs ≤ p.1) →
      ivSet (mergeGo cs ce rest) = Finset.Ico cs ce ∪ ivSet rest
      ∧ (∀ q ∈ mergeGo cs ce rest, cs ≤ q.1)
      ∧ List.Chain' (fun a b => a.2 < b.1) (mergeGo cs ce rest)
      ∧ (cs < ce → (∀ p ∈ rest, p.1 < p.2) →
          ∀ q ∈ mergeGo cs ce rest, q.1 < q.2) := by
  intro rest
  induction rest with
  | nil =>
      intro cs ce _ _
      refine ⟨by simp [mergeGo, ivSet_cons, ivSet_nil], ?_, ?_, ?_⟩
      · intro q hq
        rcases List.mem_singleton.mp hq with rfl
        exact Nat.le_refl _
      · simp [mergeGo, List.chain'_singleton]
      · intro h _ q hq
        rcases List.mem_singleton.mp hq with rfl
        exact h
  | cons p rest ih =>
      intro cs ce hsorted hge
      obtain ⟨s, e⟩ := p
      rcases List.pairwise_cons.mp hsorted with ⟨hhead, htail⟩
      have hcss : cs ≤ s := hge _ (List.mem_cons_self _ _)
      by_cases hse : s ≤ ce
      · have hmax : (if ce < e then e else ce) = max ce e := by
          split <;> omega
        rw [mergeGo, if_pos hse, hmax]
        obtain ⟨ihu, ihstart, ihchain, ihwf⟩ := ih cs (max ce e) htail
          (fun p hp => Nat.le_trans hcss (hhead p hp))
        refine ⟨?_, ihstart, ihchain, ?_⟩
        · rw [ihu, ivSet_cons, ← Finset.union_assoc,
            ico_union_max cs ce s e hcss hse]
        · intro hcsce hwf q hq
          exact ihwf (by omega) (fun p hp => hwf p (List.mem_cons_of_mem _ hp)) q hq
      · rw [mergeGo, if_neg hse]
        obtain ⟨ihu, ihstart, ihchain, ihwf⟩ := ih s e htail hhead
        refine ⟨?_, ?_, ?_, ?_⟩
        · rw [ivSet_cons, ihu, ivSet_cons, ← Finset.union_assoc]
        · intro q hq
          rcases List.mem_cons.mp hq with hq | hq
          · subst hq; exact Nat.le_refl _
          · exact Nat.le_trans hcss (ihstart q hq)
        · rw [List.chain'_cons']
          refine ⟨?_, ihchain⟩
          intro y hy
          have hymem : y ∈ mergeGo s e rest := List.mem_of_mem_head? hy
          have := ihstart y hymem
          omega
        · intro hcsce hwf q hq
          rcases List.mem_cons.mp hq with hq | hq
          · subst hq; exact hcsce
          · exact ihwf (hwf _ (List.mem_cons_self _ _))
              (fun p hp => hwf p (List.mem_cons_of_mem _ hp)) q hq

/-- `merge_intervals` of well-formed intervals: same covered point set,
sorted and pairwise separated output, well-formed members. -/
theorem mergeIntervals_spec (ivs : List (Nat × Nat))
    (hwf : ∀ p ∈ ivs, p.1 < p.2) :
    ivSet (mergeIntervals ivs) = ivSet ivs
    ∧ List.Chain' (fun a b => a.2 < b.1) (mergeIntervals ivs)
    ∧ (∀ q ∈ mergeIntervals ivs, q.1 < q.2) := by
  rcases hsp : sortByKey (fun c => c.1) ivs with _ | ⟨⟨cs, ce⟩, rest⟩
  · have hivs : ivs = [] := by
      have := (sortByKey_perm (fun c => c.1) ivs).length_eq
      rw [hsp] at this
      exact List.length_eq_zero.mp this.symm
    subst hivs
    refine ⟨rfl, ?_, by simp [mergeIntervals, sortByKey]⟩
    show List.Chain' _ (mergeIntervals [])
    have : mergeIntervals [] = [] := rfl
    rw [this]
    exact List.chain'_nil
  · have hme : mergeIntervals ivs = mergeGo cs ce rest := by
      rw [mergeIntervals, hsp]
    rw [hme]
    have hperm : ((cs, ce) :: rest).Perm ivs := by
      rw [← hsp]; exact sortByKey_perm _ _
    have hsorted := sortByKey_sorted (fun c => c.1) ivs
    rw [hsp] at hsorted
    rcases List.pairwise_cons.mp hsorted with ⟨hhead, htail⟩
    obtain ⟨hu, hstart, hchain, hwfo⟩ := mergeGo_spec rest cs ce htail hhead
    have hwfs : ∀ p ∈ (cs, ce) :: rest, p.1 < p.2 :=
      fun p hp => hwf p (hperm.mem_iff.mp hp)
    refine ⟨?_, hchain, ?_⟩
    · rw [hu, ← ivSet_perm hperm]
      rfl
    · exact hwfo (hwfs _ (List.mem_cons_self _ _))
        (fun p hp => hwfs p (List.mem_cons_of_mem _ hp))

/-- A chain of separated well-formed ranges is pairwise separated. -/
theorem chain_sep_pairwise (l : List (Nat × Nat))
    (hch : List.Chain' (fun a b => a.2 < b.1) l)
    (hwf : ∀ p ∈ l, p.1 < p.2) :
    l.Pairwise (fun a b => a.2 < b.1) := by
  induction l with
  | nil => exact List.Pairwise.nil
  | cons a t ih =>
      rcases t with _ | ⟨b, t2⟩
      · simp
      · rw [List.chain'_cons] at hch
        have htail := ih hch.2 (fun p hp => hwf p (List.mem_cons_of_mem _ hp))
        refine List.pairwise_cons.mpr ⟨?_, htail⟩
        intro q hq
        rcases List.mem_cons.mp hq with hq | hq
        · subst hq; exact hch.1
        · have hb : b.2 < q.1 := by
            rcases List.pairwise_cons.mp htail with ⟨hb2, _⟩
            exact hb2 q hq
          have hbwf : b.1 < b.2 := hwf b (by simp)
          omega


/-! ## Whole-block GFF writer (`src/utils/common.rs::write_gff_output`)

Sorts the requested byte ranges by start, merges overlapping/adjacent ranges
(`if s <= ce`), pushes a group only when `cs < ce`, then drops slices with
`so >= eo` or `end > file_len` and writes the remaining slices of the mmap in
order with vectored I/O (the byte output is the concatenation of the slices;
the partial-write loop only resumes interrupted slices). -/

def wgoMerge (cs ce : Nat) : List (Nat × Nat) → List (Nat × Nat)
  | [] => if cs < ce then [(cs, ce)] else []
  | (s, e) :: rest =>
      if s ≤ ce then wgoMerge cs (max ce e) rest
      else (if cs < ce then [(cs, ce)] else []) ++ wgoMerge s e rest

/-- The `merged` list of `write_gff_output`. -/
def writeGffMerged (blocks : List (Nat × Nat)) : List (Nat × Nat) :=
  match sortByKey (fun b => b.1) blocks with
  | [] => []
  | (cs, ce) :: rest => wgoMerge cs ce rest

/-- The slice ranges actually pushed to the vectored writer: merged ranges
minus empty ranges and ranges reaching past the end of the file. -/
def writeGffSlices (fileLen : Nat) (blocks : List (Nat × Nat × Nat)) :
    List (Nat × Nat) :=
  (writeGffMerged (blocks.map (fun b => (b.2.1, b.2.2)))).filter
    (fun r => !decide (r.2 ≤ r.1) && !decide (fileLen < r.2))

/-- The bytes written by `write_gff_output`: the concatenation of the mmap
slices, in order. -/
def writeGffOutputBytes (file : List Nat) (blocks : List (Nat × Nat × Nat)) :
    List Nat :=
  ((writeGffSlices file.length blocks).map
    (fun r => (file.drop r.1).take (r.2 - r.1))).flatten

theorem wgoMerge_spec :
    ∀ (rest : List (Nat × Nat)) (cs ce : Nat),
      rest.Pairwise (fun a b => a.1 ≤ b.1) → (∀ p ∈ rest, cs ≤ p.1) →
      ivSet (wgoMerge cs ce rest) = Finset.Ico cs ce ∪ ivSet rest
      ∧ (∀ q ∈ wgoMerge cs ce rest, cs ≤ q.1 ∧ q.1 < q.2)
      ∧ List.Chain' (fun a b => a.2 < b.1) (wgoMerge cs ce rest)
      ∧ (∀ L, ce ≤ L → (∀ p ∈ rest, p.2 ≤ L) →
          ∀ q ∈ wgoMerge cs ce rest, q.2 ≤ L) := by
  intro rest
  induction rest with
  | nil =>
      intro cs ce _ _
      by_cases h : cs < ce
      · refine ⟨?_, ?_, ?_, ?_⟩
        · simp [wgoMerge, if_pos h, ivSet_cons, ivSet_nil]
        · intro q hq
          rw [wgoMerge, if_pos h] at hq
          rcases List.mem_singleton.mp hq with rfl
          exact ⟨Nat.le_refl _, h⟩
        · rw [wgoMerge, if_pos h]
          exact List.chain'_singleton _
        · intro L hL _ q hq
          rw [wgoMerge, if_pos h] at hq
          rcases List.mem_singleton.mp hq with rfl
          exact hL
      · refine ⟨?_, ?_, ?_, ?_⟩
        · have hico : Finset.Ico cs ce = ∅ := by
            apply Finset.Ico_eq_empty
            omega
          simp [wgoMerge, if_neg h, ivSet_nil, hico]
        · intro q hq
          rw [wgoMerge, if_neg h] at hq
          exact absurd hq (List.not_mem_nil q)
        · rw [wgoMerge, if_neg h]
          exact List.chain'_nil
        · intro L hL _ q hq
          rw [wgoMerge, if_neg h] at hq
          exact absurd hq (List.not_mem_nil q)
  | cons p rest ih =>
      intro cs ce hsorted hge
      obtain ⟨s, e⟩ := p
      rcases List.pairwise_cons.mp hsorted with ⟨hhead, htail⟩
      have hcss : cs ≤ s := hge _ (List.mem_cons_self _ _)
      by_cases hse : s ≤ ce
      · rw [wgoMerge, if_pos hse]
        obtain ⟨ihu, ihq, ihchain, ihend⟩ := ih cs (max ce e) htail
          (fun p hp => Nat.le_trans hcss (hhead p hp))
        refine ⟨?_, ihq, ihchain, ?_⟩
        · rw [ihu, ivSet_cons, ← Finset.union_assoc,
            ico_union_max cs ce s e hcss hse]
        · intro L hL hrest q hq
          refine ihend L ?_ (fun p hp => hrest p (List.mem_cons_of_mem _ hp)) q hq
          have := hrest _ (List.mem_cons_self _ _)
          simp at this ⊢
          omega
      · rw [wgoMerge, if_neg hse]
        obtain ⟨ihu, ihq, ihchain, ihend⟩ := ih s e htail hhead
        have htailge : ∀ q ∈ wgoMerge s e rest, s ≤ q.1 ∧ q.1 < q.2 := ihq
        refine ⟨?_, ?_, ?_, ?_⟩
        · by_cases h : cs < ce
          · rw [if_pos h]
            rw [List.cons_append, List.nil_append, ivSet_cons, ihu, ivSet_cons,
              ← Finset.union_assoc]
          · rw [if_neg h]
            have hico : Finset.Ico cs ce = ∅ := by
              apply Finset.Ico_eq_empty
              omega
            rw [List.nil_append, ihu, ivSet_cons, hico, Finset.empty_union]
        · intro q hq
          rw [List.mem_append] at hq
          rcases hq with hq | hq
          · split at hq
            · rcases List.mem_singleton.mp hq with rfl
              exact ⟨Nat.le_refl _, by assumption⟩
            · exact absurd hq (List.not_mem_nil q)
          · obtain ⟨h1, h2⟩ := htailge q hq
            exact ⟨Nat.le_trans hcss h1, h2⟩
        · by_cases h : cs < ce
          · rw [if_pos h, List.cons_append, List.nil_append]
            rw [List.chain'_cons']
            refine ⟨?_, ihchain⟩
            intro y hy
            have hymem : y ∈ wgoMerge s e rest := List.mem_of_mem_head? hy
            have := (htailge y hymem).1
            simp
            omega
          · rw [if_neg h, List.nil_append]
            exact ihchain
        · intro L hL hrest q hq
          rw [List.mem_append] at hq
          rcases hq with hq | hq
          · split at hq
            · rcases List.mem_singleton.mp hq with rfl
              exact hL
            · exact absurd hq (List.not_mem_nil q)
          · exact ihend L (hrest _ (List.mem_cons_self _ _))
              (fun p hp => hrest p (List.mem_cons_of_mem _ hp)) q hq

/-- `write_gff_output`'s sort+merge step: same covered byte set, separated
chain, nonempty well-formed ranges, and (when all inputs end within `L`) all
outputs end within `L`.  No well-formedness of the inputs is needed. -/
theorem writeGffMerged_spec (blocks : List (Nat × Nat)) :
    ivSet (writeGffMerged blocks) = ivSet blocks
    ∧ (∀ q ∈ writeGffMerged blocks, q.1 < q.2)
    ∧ List.Chain' (fun a b => a.2 < b.1) (writeGffMerged blocks)
    ∧ (∀ L, (∀ p ∈ blocks, p.2 ≤ L) → ∀ q ∈ writeGffMerged blocks, q.2 ≤ L) := by
  rcases hsp : sortByKey (fun b => b.1) blocks with _ | ⟨⟨cs, ce⟩, rest⟩
  · have hb : blocks = [] := by
      have := (sortByKey_perm (fun b => b.1) blocks).length_eq
      rw [hsp] at this
      exact List.length_eq_zero.mp this.symm
    subst hb
    have hm : writeGffMerged [] = [] := rfl
    rw [hm]
    exact ⟨rfl, by simp, List.chain'_nil, by simp⟩
  · have hme : writeGffMerged blocks = wgoMerge cs ce rest := by
      rw [writeGffMerged, hsp]
    have hperm : ((cs, ce) :: rest).Perm blocks := by
      rw [← hsp]; exact sortByKey_perm _ _
    have hsorted := sortByKey_sorted (fun b => b.1) blocks
    rw [hsp] at hsorted
    rcases List.pairwise_cons.mp hsorted with ⟨hhead, htail⟩
    obtain ⟨hu, hq, hchain, hend⟩ := wgoMerge_spec rest cs ce htail hhead
    rw [hme]
    refine ⟨?_, fun q hqm => (hq q hqm).2, hchain, ?_⟩
    · rw [hu, ← ivSet_perm hperm]
      rfl
    · intro L hl q hqm
      refine hend L ?_ ?_ q hqm
      · exact hl _ (hperm.mem_iff.mp (List.mem_cons_self _ _))
      · intro p hp
        exact hl _ (hperm.mem_iff.mp (List.mem_cons_of_mem _ hp))

/-- Counting how many ranges of a pairwise-separated list cover a point:
exactly one if the point is covered at all. -/
theorem countP_cover_of_pairwise (l : List (Nat × Nat)) (x : ℕ)
    (hpw : l.Pairwise (fun a b => a.2 ≤ b.1))
    (hx : x ∈ ivSet l) :
    l.countP (fun r => decide (r.1 ≤ x) && decide (x < r.2)) = 1 := by
  induction l with
  | nil => simp [ivSet_nil] at hx
  | cons r t ih =>
      rcases List.pairwise_cons.mp hpw with ⟨hr, ht⟩
      rw [ivSet_cons, Finset.mem_union, Finset.mem_Ico] at hx
      by_cases hcov : r.1 ≤ x ∧ x < r.2
      · rw [List.countP_cons]
        have h0 : t.countP (fun r => decide (r.1 ≤ x) && decide (x < r.2)) = 0 := by
          rw [List.countP_eq_zero]
          intro q hq
          have := hr q hq
          simp
          omega
        simp [h0, hcov.1, hcov.2]
      · rw [List.countP_cons]
        have hxt : x ∈ ivSet t := by
          rcases hx with hx | hx
          · exact absurd hx hcov
          · exact hx
        rw [ih ht hxt]
        have : ¬ (decide (r.1 ≤ x) && decide (x < r.2)) = true := by
          simp
          omega
        simp at this
        simp [this]
        omega

/-- C6 (amended): provided every requested range ends within the file, the
whole-block writer emits the sorted merged pairwise-disjoint ranges: they
cover exactly the requested byte positions (so each requested byte appears in
exactly one emitted slice), consecutive slices are strictly separated (no
overlap, ascending start order), every slice is nonempty, and the written
bytes are the concatenation of those slices of the file. -/
theorem c6_write_gff_output_blocks (fileLen : Nat)
    (blocks : List (Nat × Nat × Nat))
    (hin : ∀ b ∈ blocks, b.2.2 ≤ fileLen) :
    ivSet (writeGffSlices fileLen blocks)
        = ivSet (blocks.map (fun b => (b.2.1, b.2.2)))
    ∧ List.Chain' (fun a b => a.2 < b.1) (writeGffSlices fileLen blocks)
    ∧ (∀ q ∈ writeGffSlices fileLen blocks, q.1 < q.2 ∧ q.2 ≤ fileLen)
    ∧ (∀ x ∈ ivSet (blocks.map (fun b => (b.2.1, b.2.2))),
        (writeGffSlices fileLen blocks).countP
          (fun r => decide (r.1 ≤ x) && decide (x < r.2)) = 1) := by
  obtain ⟨hu, hq, hchain, hend⟩ :=
    writeGffMerged_spec (blocks.map (fun b => (b.2.1, b.2.2)))
  have hendL : ∀ q ∈ writeGffMerged (blocks.map (fun b => (b.2.1, b.2.2))),
      q.2 ≤ fileLen := by
    refine hend fileLen ?_
    intro p hp
    rw [List.mem_map] at hp
    obtain ⟨b, hb, rfl⟩ := hp
    exact hin b hb
  have hfilter : writeGffSlices fileLen blocks
      = writeGffMerged (blocks.map (fun b => (b.2.1, b.2.2))) := by
    rw [writeGffSlices]
    apply List.filter_eq_self.mpr
    intro q hqm
    have h1 := hq q hqm
    have h2 := hendL q hqm
    simp
    omega
  rw [hfilter]
  refine ⟨hu, hchain, fun q hqm => ⟨hq q hqm, hendL q hqm⟩, ?_⟩
  intro x hx
  refine countP_cover_of_pairwise _ x ?_ (by rw [hu]; exact hx)
  have hpw := chain_sep_pairwise _ hchain hq
  exact hpw.imp (fun h => Nat.le_of_lt h)

/-- C6 counterexample: with file length 20 and requested ranges
`[0,10)` (in bounds) and `[5,30)` (past EOF), the two ranges merge into
`[0,30)` which is then dropped entirely: the writer emits nothing although
byte 0 is covered by the in-bounds requested range `[0,10)`. -/
theorem c6_inbounds_bytes_lost :
    writeGffSlices 20 [(0, 0, 10), (1, 5, 30)] = []
    ∧ writeGffOutputBytes (List.range 20) [(0, 0, 10), (1, 5, 30)] = []
    ∧ (10 : Nat) ≤ 20
    ∧ (0 : ℕ) ∈ Finset.Ico (0 : ℕ) 10 := by
  refine ⟨rfl, rfl, by omega, by decide⟩

/-- Witness for `c6_write_gff_output_blocks` at in-bounds blocks
`[5,10)`, `[0,7)`, `[12,12)` with file length 20. -/
theorem c6_write_gff_output_blocks_witness :
    (∀ b ∈ [((0 : Nat), (5 : Nat), (10 : Nat)), (1, 0, 7), (2, 12, 12)],
      b.2.2 ≤ 20)
    ∧ (ivSet (writeGffSlices 20 [(0, 5, 10), (1, 0, 7), (2, 12, 12)])
        = ivSet ([(0, 5, 10), (1, 0, 7), (2, 12, 12)].map
            (fun b => (b.2.1, b.2.2)))
      ∧ List.Chain' (fun a b => a.2 < b.1)
          (writeGffSlices 20 [(0, 5, 10), (1, 0, 7), (2, 12, 12)])
      ∧ (∀ q ∈ writeGffSlices 20 [(0, 5, 10), (1, 0, 7), (2, 12, 12)],
          q.1 < q.2 ∧ q.2 ≤ 20)
      ∧ (∀ x ∈ ivSet ([(0, 5, 10), (1, 0, 7), (2, 12, 12)].map
            (fun b => (b.2.1, b.2.2))),
          (writeGffSlices 20 [(0, 5, 10), (1, 0, 7), (2, 12, 12)]).countP
            (fun r => decide (r.1 ≤ x) && decide (x < r.2)) = 1)) :=
  ⟨by decide, c6_write_gff_output_blocks 20 _ (by decide)⟩


/-! ## Coverage breadth (`src/commands/coverage.rs::compute_breadth_for_root`)

The GFF slice parsing step (columns, `ID=` extraction, 1-based to half-open
conversion) yields a list of `FeatLine` records with interned id indices; the
two-pointer sweep against the merged coverage below is modelled verbatim.
Parsed lines always satisfy `start0 < end0` (`e1 == 0` lines are dropped,
`s1 > e1` is swapped, `start0 = s1 - 1 < e1 = end0`). -/

structure FeatLine where
  id_idx : Nat
  start0 : Nat
  end0 : Nat
  deriving DecidableEq, Repr

/-- Inner `k` loop of the two-pointer sweep: starting at the current coverage
pointer, walk coverage intervals while `cov[k].0 < fl.end0`, pushing the
nonempty clipped piece, and stop (`break`) at the first interval with
`cov[k].1 > fl.end0`. -/
def collectPieces (f : FeatLine) : List (Nat × Nat) → List (Nat × Nat)
  | [] => []
  | c :: rest =>
      if c.1 < f.end0 then
        (if max f.start0 c.1 < min f.end0 c.2
          then [(max f.start0 c.1, min f.end0 c.2)] else [])
        ++ (if c.2 ≤ f.end0 then collectPieces f rest else [])
      else []

/-- Outer loop over the features (already sorted by `start0`): the shared
pointer `j` is advanced past coverage intervals with `cov[j].1 ≤ fl.start0`;
the advanced position is modelled by `dropWhile` on the remaining suffix.
Each collected piece is tagged with the feature's id index. -/
def sweepPieces (cov : List (Nat × Nat)) : List FeatLine → List (Nat × (Nat × Nat))
  | [] => []
  | f :: rest =>
      ((collectPieces f (cov.dropWhile (fun c => decide (c.2 ≤ f.start0)))).map
        (fun p => (f.id_idx, p)))
        ++ sweepPieces (cov.dropWhile (fun c => decide (c.2 ≤ f.start0))) rest

/-- `id_overlap[id]`: the pieces collected for one id index. -/
def idPieces (lines : List FeatLine) (cov : List (Nat × Nat)) (id : Nat) :
    List (Nat × Nat) :=
  (sweepPieces cov (sortByKey (fun f => f.start0) lines)).filterMap
    (fun q => if q.1 = id then some q.2 else none)

/-- `min_s[id]`: minimum feature start for the id (initial `u32::MAX`). -/
def idMinStart (lines : List FeatLine) (id : Nat) : Nat :=
  ((lines.filter (fun f => decide (f.id_idx = id))).map
    (fun f => f.start0)).foldr min U32MAX

/-- `max_e[id]`: maximum feature end for the id (initial `0`). -/
def idMaxEnd (lines : List FeatLine) (id : Nat) : Nat :=
  ((lines.filter (fun f => decide (f.id_idx = id))).map
    (fun f => f.end0)).foldr max 0

/-- `compute_breadth_for_root`, per id index: `none` when the function's early
returns or the `length > 0 || breadth > 0` output filter drop the id, else the
`(chrom-independent) (min start, max end, breadth)` triple of the output map.
The breadth is `union_len` of the id's collected overlap pieces. -/
def computeBreadthForRoot (lines : List FeatLine) (cov : List (Nat × Nat))
    (id : Nat) : Option (Nat × Nat × Nat) :=
  if lines.isEmpty || cov.isEmpty then none
  else if (lines.filter (fun f => decide (f.id_idx = id))).isEmpty then none
  else if 0 < (if idMinStart lines id < idMaxEnd lines id
        then idMaxEnd lines id - idMinStart lines id else 0)
      ∨ 0 < unionLen (idPieces lines cov id)
    then some (idMinStart lines id, idMaxEnd lines id,
      unionLen (idPieces lines cov id))
  else none

theorem collectPieces_spec (f : FeatLine) :
    ∀ (cov : List (Nat × Nat)),
      List.Chain' (fun a b => a.2 < b.1) cov → (∀ p ∈ cov, p.1 < p.2) →
      ivSet (collectPieces f cov)
        = Finset.Ico f.start0 f.end0 ∩ ivSet cov := by
  intro cov
  induction cov with
  | nil => simp [collectPieces, ivSet_nil]
  | cons c rest ih =>
      intro hchain hwf
      have hpw := chain_sep_pairwise _ hchain hwf
      rcases List.pairwise_cons.mp hpw with ⟨hlater, _⟩
      have hchainrest : List.Chain' (fun a b => a.2 < b.1) rest :=
        (List.chain'_cons'.mp hchain).2
      have hwfrest : ∀ p ∈ rest, p.1 < p.2 :=
        fun p hp => hwf p (List.mem_cons_of_mem _ hp)
      have hpiece : ivSet (if max f.start0 c.1 < min f.end0 c.2
            then [(max f.start0 c.1, min f.end0 c.2)] else [])
          = Finset.Ico f.start0 f.end0 ∩ Finset.Ico c.1 c.2 := by
        rw [Finset.Ico_inter_Ico]
        by_cases hmm : max f.start0 c.1 < min f.end0 c.2
        · rw [if_pos hmm, ivSet_cons, ivSet_nil, Finset.union_empty]
        · rw [if_neg hmm, ivSet_nil, eq_comm]
          apply Finset.Ico_eq_empty
          intro hcon
          exact hmm (by simpa using hcon)
      by_cases hc1 : c.1 < f.end0
      · by_cases hc2 : c.2 ≤ f.end0
        · rw [collectPieces, if_pos hc1, if_pos hc2, ivSet_append, hpiece,
            ih hchainrest hwfrest, ivSet_cons, Finset.inter_union_distrib_left]
        · rw [collectPieces, if_pos hc1, if_neg hc2, List.append_nil, hpiece]
          have hrest0 : Finset.Ico f.start0 f.end0 ∩ ivSet rest = ∅ := by
            rw [Finset.eq_empty_iff_forall_not_mem]
            intro x hx
            rw [Finset.mem_inter, Finset.mem_Ico, mem_ivSet] at hx
            obtain ⟨⟨hx1, hx2⟩, p, hp, hp1, _⟩ := hx
            have := hlater p hp
            omega
          rw [ivSet_cons, Finset.inter_union_distrib_left, hrest0,
            Finset.union_empty]
      · rw [collectPieces, if_neg hc1]
        rw [ivSet_nil, eq_comm, ivSet_cons, Finset.inter_union_distrib_left]
        have h1 : Finset.Ico f.start0 f.end0 ∩ Finset.Ico c.1 c.2 = ∅ := by
          rw [Finset.eq_empty_iff_forall_not_mem]
          intro x hx
          rw [Finset.mem_inter, Finset.mem_Ico, Finset.mem_Ico] at hx
          omega
        have h2 : Finset.Ico f.start0 f.end0 ∩ ivSet rest = ∅ := by
          rw [Finset.eq_empty_iff_forall_not_mem]
          intro x hx
          rw [Finset.mem_inter, Finset.mem_Ico, mem_ivSet] at hx
          obtain ⟨⟨hx1, hx2⟩, p, hp, hp1, _⟩ := hx
          have h3 := hlater p hp
          have h4 := hwf c (List.mem_cons_self _ _)
          omega
        rw [h1, h2, Finset.union_empty]

/-- Advancing the shared pointer never changes the intersection with any set
whose elements are at least the advance bound. -/
theorem dropWhile_inter_ivSet (Y : Nat) (cov : List (Nat × Nat)) (S : Finset ℕ)
    (hS : ∀ x ∈ S, Y ≤ x) :
    S ∩ ivSet cov = S ∩ ivSet (cov.dropWhile (fun c => decide (c.2 ≤ Y))) := by
  conv_lhs => rw [← List.takeWhile_append_dropWhile
    (fun c => decide (c.2 ≤ Y)) cov]
  rw [ivSet_append, Finset.inter_union_distrib_left]
  have h0 : S ∩ ivSet (cov.takeWhile (fun c => decide (c.2 ≤ Y))) = ∅ := by
    rw [Finset.eq_empty_iff_forall_not_mem]
    intro x hx
    rw [Finset.mem_inter, mem_ivSet] at hx
    obtain ⟨hxs, p, hp, hp1, hp2⟩ := hx
    have := List.mem_takeWhile_imp hp
    have := hS x hxs
    simp at *
    omega
  rw [h0, Finset.empty_union]


theorem filterMap_tag (k id : Nat) (l : List (Nat × Nat)) :
    (l.map (fun p => ((k, p) : Nat × (Nat × Nat)))).filterMap
        (fun q => if q.1 = id then some q.2 else none)
      = if k = id then l else [] := by
  induction l with
  | nil => simp
  | cons p t ih =>
      by_cases h : k = id
      · subst h
        simp [List.filterMap_cons, ih]
      · simp [List.filterMap_cons, h, ih]

theorem sweepPieces_spec :
    ∀ (fs : List FeatLine) (cov : List (Nat × Nat)),
      fs.Pairwise (fun a b => a.start0 ≤ b.start0) →
      List.Chain' (fun a b => a.2 < b.1) cov → (∀ p ∈ cov, p.1 < p.2) →
      ∀ id,
        ivSet ((sweepPieces cov fs).filterMap
          (fun q => if q.1 = id then some q.2 else none))
        = ivSet ((fs.filter (fun f => decide (f.id_idx = id))).map
            (fun f => (f.start0, f.end0))) ∩ ivSet cov := by
  intro fs
  induction fs with
  | nil =>
      intro cov _ _ _ id
      simp [sweepPieces, ivSet_nil]
  | cons f rest ih =>
      intro cov hsorted hchain hwf id
      rcases List.pairwise_cons.mp hsorted with ⟨hhead, htail⟩
      have hsuffix : (cov.dropWhile (fun c => decide (c.2 ≤ f.start0))).IsSuffix cov :=
        List.dropWhile_suffix _
      have hchain2 : List.Chain' (fun a b => a.2 < b.1)
          (cov.dropWhile (fun c => decide (c.2 ≤ f.start0))) :=
        hchain.suffix hsuffix
      have hwf2 : ∀ p ∈ cov.dropWhile (fun c => decide (c.2 ≤ f.start0)),
          p.1 < p.2 :=
        fun p hp => hwf p (hsuffix.sublist.mem hp)
      rw [sweepPieces, List.filterMap_append, ivSet_append, filterMap_tag]
      have hpieces : ivSet (collectPieces f
            (cov.dropWhile (fun c => decide (c.2 ≤ f.start0))))
          = Finset.Ico f.start0 f.end0 ∩ ivSet cov := by
        rw [collectPieces_spec f _ hchain2 hwf2]
        rw [← dropWhile_inter_ivSet f.start0 cov _ ?_]
        intro x hx
        exact (Finset.mem_Ico.mp hx).1
      have hrest : ivSet ((sweepPieces
            (cov.dropWhile (fun c => decide (c.2 ≤ f.start0))) rest).filterMap
              (fun q => if q.1 = id then some q.2 else none))
          = ivSet ((rest.filter (fun f => decide (f.id_idx = id))).map
              (fun f => (f.start0, f.end0))) ∩ ivSet cov := by
        rw [ih _ htail hchain2 hwf2 id]
        rw [← dropWhile_inter_ivSet f.start0 cov _ ?_]
        intro x hx
        rw [mem_ivSet] at hx
        obtain ⟨p, hp, hp1, _⟩ := hx
        rw [List.mem_map] at hp
        obtain ⟨g, hg, rfl⟩ := hp
        have hgr : g ∈ rest := (List.mem_filter.mp hg).1
        exact Nat.le_trans (hhead g hgr) hp1
      by_cases hfid : f.id_idx = id
      · rw [if_pos hfid, hpieces, hrest]
        have hfilter : (f :: rest).filter (fun f => decide (f.id_idx = id))
            = f :: rest.filter (fun f => decide (f.id_idx = id)) := by
          rw [List.filter_cons, if_pos (by simp [hfid])]
        rw [hfilter, List.map_cons, ivSet_cons,
          Finset.union_inter_distrib_right]
      · rw [if_neg hfid, ivSet_nil, Finset.empty_union, hrest]
        have hfilter : (f :: rest).filter (fun f => decide (f.id_idx = id))
            = rest.filter (fun f => decide (f.id_idx = id)) := by
          rw [List.filter_cons, if_neg (by simp [hfid])]
        rw [hfilter]

theorem mergeGo_ne_nil : ∀ (rest : List (Nat × Nat)) (cs ce : Nat),
    mergeGo cs ce rest ≠ [] := by
  intro rest
  induction rest with
  | nil => intro cs ce; simp [mergeGo]
  | cons p rest ih =>
      intro cs ce
      obtain ⟨s, e⟩ := p
      rw [mergeGo]
      by_cases hse : s ≤ ce
      · rw [if_pos hse]; exact ih _ _
      · rw [if_neg hse]; simp

theorem mergeIntervals_ne_nil (ivs : List (Nat × Nat)) (h : ivs ≠ []) :
    mergeIntervals ivs ≠ [] := by
  rcases hsp : sortByKey (fun c => c.1) ivs with _ | ⟨⟨cs, ce⟩, rest⟩
  · exfalso
    apply h
    have := (sortByKey_perm (fun c => c.1) ivs).length_eq
    rw [hsp] at this
    exact List.length_eq_zero.mp this.symm
  · have : mergeIntervals ivs = mergeGo cs ce rest := by
      rw [mergeIntervals, hsp]
    rw [this]
    exact mergeGo_ne_nil _ _ _

theorem foldr_min_le (l : List Nat) (init a : Nat) (ha : a ∈ l) :
    l.foldr min init ≤ a := by
  induction l with
  | nil => simp at ha
  | cons b t ih =>
      rcases List.mem_cons.mp ha with h | h
      · subst h; exact min_le_left _ _
      · exact Nat.le_trans (min_le_right _ _) (ih h)

theorem le_foldr_max (l : List Nat) (init a : Nat) (ha : a ∈ l) :
    a ≤ l.foldr max init := by
  induction l with
  | nil => simp at ha
  | cons b t ih =>
      rcases List.mem_cons.mp ha with h | h
      · subst h; exact le_max_left _ _
      · exact Nat.le_trans (ih h) (le_max_right _ _)

/-- C4: for every parsed root slice and every nonempty collected region list,
`compute_breadth_for_root` on the merged coverage reports, for each feature
id present in the slice, the row `(min start, max end, breadth)` whose breadth
equals the measure of the union of the intersections of that id's feature
intervals with the merged disjoint coverage — i.e.
`|(⋃ feature ranges of the id) ∩ (⋃ cov_merged)|`. -/
theorem c4_coverage_breadth (lines : List FeatLine) (raw : List (Nat × Nat))
    (hlines : ∀ f ∈ lines, f.start0 < f.end0)
    (hraw : ∀ c ∈ raw, c.1 < c.2) (hrawne : raw ≠ []) (id : Nat)
    (hid : ∃ f ∈ lines, f.id_idx = id) :
    computeBreadthForRoot lines (mergeIntervals raw) id
      = some (idMinStart lines id, idMaxEnd lines id,
          (ivSet ((lines.filter (fun f => decide (f.id_idx = id))).map
              (fun f => (f.start0, f.end0)))
            ∩ ivSet (mergeIntervals raw)).card) := by
  obtain ⟨f0, hf0, hf0id⟩ := hid
  have hlne : lines.isEmpty = false := by
    rcases lines with _ | _
    · simp at hf0
    · rfl
  have hcne : (mergeIntervals raw).isEmpty = false := by
    have hne := mergeIntervals_ne_nil raw hrawne
    rcases hme : mergeIntervals raw with _ | ⟨a, t⟩
    · exact absurd hme hne
    · rfl
  have hf0f : f0 ∈ lines.filter (fun f => decide (f.id_idx = id)) :=
    List.mem_filter.mpr ⟨hf0, by simp [hf0id]⟩
  have hfne : (lines.filter (fun f => decide (f.id_idx = id))).isEmpty = false := by
    rcases hmf : lines.filter (fun f => decide (f.id_idx = id)) with _ | ⟨a, t⟩
    · rw [hmf] at hf0f; simp at hf0f
    · rw [hmf]
      rfl
  obtain ⟨hcovset, hcovchain, hcovwf⟩ := mergeIntervals_spec raw hraw
  have hsorted := sortByKey_sorted (fun f => f.start0) lines
  have hpermlines := sortByKey_perm (fun f => f.start0) lines
  have hivpieces : ivSet (idPieces lines (mergeIntervals raw) id)
      = ivSet ((lines.filter (fun f => decide (f.id_idx = id))).map
          (fun f => (f.start0, f.end0))) ∩ ivSet (mergeIntervals raw) := by
    rw [idPieces, sweepPieces_spec _ _ hsorted hcovchain hcovwf id]
    congr 1
    apply ivSet_perm
    exact (hpermlines.filter _).map _
  have hbreadth : unionLen (idPieces lines (mergeIntervals raw) id)
      = (ivSet ((lines.filter (fun f => decide (f.id_idx = id))).map
          (fun f => (f.start0, f.end0)))
        ∩ ivSet (mergeIntervals raw)).card := by
    rw [unionLen_spec, hivpieces]
  have hmn : idMinStart lines id ≤ f0.start0 :=
    foldr_min_le _ _ _ (List.mem_map.mpr ⟨f0, hf0f, rfl⟩)
  have hmx : f0.end0 ≤ idMaxEnd lines id :=
    le_foldr_max _ _ _ (List.mem_map.mpr ⟨f0, hf0f, rfl⟩)
  have hf0wf := hlines f0 hf0
  have hcond : 0 < (if idMinStart lines id < idMaxEnd lines id
        then idMaxEnd lines id - idMinStart lines id else 0)
      ∨ 0 < unionLen (idPieces lines (mergeIntervals raw) id) := by
    left
    have hlt : idMinStart lines id < idMaxEnd lines id := by omega
    rw [if_pos hlt]
    omega
  rw [computeBreadthForRoot, hlne, hcne, hfne, Bool.or_self,
    if_neg Bool.false_ne_true, if_neg Bool.false_ne_true, if_pos hcond,
    hbreadth]


/-- Zero-padded six-digit rendering of the fractional part. -/
def pad6 (n : Nat) : String :=
  String.mk (List.replicate (6 - (toString n).length) '0') ++ toString n

/-- Model of the fraction column of `write_breadth_results`: the `f64`
division `breadth / length` followed by `{:.6}` formatting is modelled as
correctly-rounded (round-half-to-even) decimal rounding of the exact rational
`b / len` to six places; `0.000000` when `len = 0` (the code then prints the
literal `0.0`). -/
def formatFrac6 (b len : Nat) : String :=
  if len = 0 then "0.000000"
  else
    toString ((if len < 2 * (b * 1000000 % len) then b * 1000000 / len + 1
      else if 2 * (b * 1000000 % len) < len then b * 1000000 / len
      else if b * 1000000 / len % 2 = 0 then b * 1000000 / len
      else b * 1000000 / len + 1) / 1000000)
    ++ "." ++ pad6 ((if len < 2 * (b * 1000000 % len) then b * 1000000 / len + 1
      else if 2 * (b * 1000000 % len) < len then b * 1000000 / len
      else if b * 1000000 / len % 2 = 0 then b * 1000000 / len
      else b * 1000000 / len + 1) % 1000000)

/-- One row of the coverage output table
(`id\tchr\tstart\tend\tbreadth\tfraction`), with
`length = end.saturating_sub(start)`. -/
def breadthRow (idStr chr : String) (s e b : Nat) : String :=
  idStr ++ "\t" ++ chr ++ "\t" ++ toString s ++ "\t" ++ toString e ++ "\t"
    ++ toString b ++ "\t" ++ formatFrac6 b (e - s)

/-- Witness for `c4_coverage_breadth` at the spec's example: feature
`e1=[100,150)` with BED region `120..140` gives the row
`e1  chr1  100  150  20  0.400000`. -/
theorem c4_coverage_breadth_witness :
    (∀ f ∈ [FeatLine.mk 0 100 150], f.start0 < f.end0)
    ∧ (∀ c ∈ [((120 : Nat), (140 : Nat))], c.1 < c.2)
    ∧ [((120 : Nat), (140 : Nat))] ≠ []
    ∧ (∃ f ∈ [FeatLine.mk 0 100 150], f.id_idx = 0)
    ∧ computeBreadthForRoot [FeatLine.mk 0 100 150]
        (mergeIntervals [(120, 140)]) 0
      = some (100, 150,
          (ivSet (([FeatLine.mk 0 100 150].filter
              (fun f => decide (f.id_idx = 0))).map
              (fun f => (f.start0, f.end0)))
            ∩ ivSet (mergeIntervals [(120, 140)])).card)
    ∧ computeBreadthForRoot [FeatLine.mk 0 100 150]
        (mergeIntervals [(120, 140)]) 0 = some (100, 150, 20)
    ∧ breadthRow "e1" "chr1" 100 150 20
      = "e1\tchr1\t100\t150\t20\t0.400000" :=
  ⟨by decide, by decide, by decide, by decide,
    c4_coverage_breadth [FeatLine.mk 0 100 150] [(120, 140)]
      (by decide) (by decide) (by decide) 0 (by decide),
    by decide, by decide⟩

/-! ## Depth (`src/commands/depth.rs::compute_root_depth`)

As for coverage, GFF parsing yields `FeatureInst` records (`start < end` by
construction); the bin index, the per-region candidate gathering, the
half-open overlap check and the per-region dedup of hit ids are modelled
verbatim. -/

structure FeatureInst where
  start : Nat
  stop : Nat
  id_idx : Nat
  deriving DecidableEq, Repr

instance : Inhabited FeatureInst := ⟨⟨0, 0, 0⟩⟩

/-- `bin_of`: `x >> shift`. -/
def binOf (x shift : Nat) : Nat := x >>> shift

/-- `overlaps`: half-open `[a1,a2)` vs `[b1,b2)`, `max a1 b1 < min a2 b2`. -/
def overlapsB (f : FeatureInst) (r : Nat × Nat) : Bool :=
  decide (max f.start r.1 < min f.stop r.2)

/-- `max_feat_bin`: largest bin touched by any feature end (0 on empty). -/
def maxFeatBin (feats : List FeatureInst) (shift : Nat) : Nat :=
  (feats.map (fun f => binOf (f.stop - 1) shift)).foldr max 0

/-- `feat_bins[b]`: the feature indices whose bin span `b0..=b1` covers `b`,
in ascending index order (the build loop pushes them in index order); empty
past `max_feat_bin` (the `feat_bins.get(b)`/`None` path). -/
def featBins (feats : List FeatureInst) (shift : Nat) (b : Nat) : List Nat :=
  if b ≤ maxFeatBin feats shift then
    (List.range feats.length).filter (fun i =>
      decide (binOf (feats.getD i default).start shift ≤ b)
      && decide (b ≤ binOf ((feats.getD i default).stop - 1) shift))
  else []

/-- Candidate features of one region: gather the bins `rb0..=rb1`, then
`sort_unstable` + `dedup`. -/
def regionCands (feats : List FeatureInst) (shift : Nat) (r : Nat × Nat) :
    List Nat :=
  (sortByKey (fun i => i)
    (((List.range' (binOf r.1 shift)
        (binOf (r.2 - 1) shift + 1 - binOf r.1 shift)).map
      (featBins feats shift)).flatten)).dedup

/-- `hit_ids` of one region: id indices of the candidates that really overlap,
`sort_unstable` + `dedup` (each id counted at most once per region). -/
def regionHits (feats : List FeatureInst) (shift : Nat) (r : Nat × Nat) :
    List Nat :=
  (sortByKey (fun i => i)
    (((regionCands feats shift r).filter
        (fun i => overlapsB (feats.getD i default) r)).map
      (fun i => (feats.getD i default).id_idx))).dedup

/-- `depths[id]` after the region loop: each region increments the counter of
every id in its deduplicated `hit_ids` exactly once. -/
def depthCount (feats : List FeatureInst) (shift : Nat)
    (regions : List (Nat × Nat)) (id : Nat) : Nat :=
  regions.countP (fun r => decide (id ∈ regionHits feats shift r))

theorem binOf_mono (shift : Nat) {x y : Nat} (h : x ≤ y) :
    binOf x shift ≤ binOf y shift := by
  rw [binOf, binOf, Nat.shiftRight_eq_div_pow, Nat.shiftRight_eq_div_pow]
  exact Nat.div_le_div_right h

/-- Membership in the per-region hit set is exactly half-open overlap with
some feature carrying the id: the bin index loses no overlapping candidate
and admits no non-overlapping one. -/
theorem mem_regionHits_iff (feats : List FeatureInst) (shift : Nat)
    (r : Nat × Nat) (hf : ∀ f ∈ feats, f.start < f.stop)
    (hr : r.1 < r.2) (id : Nat) :
    id ∈ regionHits feats shift r
      ↔ ∃ f ∈ feats, f.id_idx = id ∧ max f.start r.1 < min f.stop r.2 := by
  rw [regionHits, List.mem_dedup, mem_sortByKey]
  constructor
  · intro hmem
    rw [List.mem_map] at hmem
    obtain ⟨i, hi, hid⟩ := hmem
    rw [List.mem_filter] at hi
    obtain ⟨hcand, hov⟩ := hi
    have hrange : i ∈ List.range feats.length := by
      rw [regionCands, List.mem_dedup, mem_sortByKey, List.mem_flatten] at hcand
      obtain ⟨l, hl, hil⟩ := hcand
      rw [List.mem_map] at hl
      obtain ⟨b, _, rfl⟩ := hl
      rw [featBins] at hil
      split at hil
      · exact (List.mem_filter.mp hil).1
      · exact absurd hil (List.not_mem_nil i)
    rw [List.mem_range] at hrange
    refine ⟨feats.getD i default, ?_, hid, by simpa [overlapsB] using hov⟩
    rw [List.getD_eq_getElem _ _ hrange]
    exact List.getElem_mem hrange
  · rintro ⟨f, hfmem, hfid, hfov⟩
    obtain ⟨i, hilen, hig⟩ := List.mem_iff_getElem.mp hfmem
    have higd : feats.getD i default = f := by
      rw [List.getD_eq_getElem _ _ hilen, hig]
    have hfwf := hf f hfmem
    -- the witness point of the overlap
    have hxf1 : f.start ≤ max f.start r.1 := le_max_left _ _
    have hxr1 : r.1 ≤ max f.start r.1 := le_max_right _ _
    have hxf2 : max f.start r.1 < f.stop := by omega
    have hxr2 : max f.start r.1 < r.2 := by omega
    have hbfeat : binOf (max f.start r.1) shift
        ≤ binOf (f.stop - 1) shift := binOf_mono shift (by omega)
    have hbmax : binOf (f.stop - 1) shift ≤ maxFeatBin feats shift := by
      refine le_foldr_max _ _ _ ?_
      exact List.mem_map.mpr ⟨f, hfmem, rfl⟩
    have hcand : i ∈ regionCands feats shift r := by
      rw [regionCands, List.mem_dedup, mem_sortByKey, List.mem_flatten]
      refine ⟨featBins feats shift (binOf (max f.start r.1) shift), ?_, ?_⟩
      · rw [List.mem_map]
        refine ⟨binOf (max f.start r.1) shift, ?_, rfl⟩
        rw [List.mem_range'_1]
        have h1 : binOf r.1 shift ≤ binOf (max f.start r.1) shift :=
          binOf_mono shift hxr1
        have h2 : binOf (max f.start r.1) shift ≤ binOf (r.2 - 1) shift :=
          binOf_mono shift (by omega)
        omega
      · rw [featBins, if_pos (Nat.le_trans hbfeat hbmax), List.mem_filter]
        refine ⟨List.mem_range.mpr hilen, ?_⟩
        rw [higd]
        have h3 : binOf f.start shift ≤ binOf (max f.start r.1) shift :=
          binOf_mono shift hxf1
        simp
        omega
    rw [List.mem_map]
    refine ⟨i, ?_, by rw [higd]; exact hfid⟩
    rw [List.mem_filter]
    refine ⟨hcand, ?_⟩
    rw [overlapsB, higd]
    simpa using hfov

/-- C5: for every parsed root slice and every region list routed to the root,
the depth reported for each feature id equals the number of input regions
that overlap (half-open) at least one feature line carrying that id — each
region counted at most once per id however many bins report it. -/
theorem c5_depth_counts (feats : List FeatureInst) (shift : Nat)
    (regions : List (Nat × Nat))
    (hf : ∀ f ∈ feats, f.start < f.stop)
    (hr : ∀ r ∈ regions, r.1 < r.2) (id : Nat) :
    depthCount feats shift regions id
      = regions.countP (fun r =>
          feats.any (fun f => decide (f.id_idx = id)
            && overlapsB f r)) := by
  rw [depthCount]
  apply List.countP_congr
  intro r hrmem
  have hiff := mem_regionHits_iff feats shift r hf (hr r hrmem) id
  simp only [decide_eq_true_eq, List.any_eq_true, Bool.and_eq_true,
    overlapsB]
  rw [hiff]


/-- Witness for `c5_depth_counts` at the spec's example: feature
`e1=[100,200)`, regions `90..110`, `150..160`, `300..400`, depth 2. -/
theorem c5_depth_counts_witness :
    (∀ f ∈ [FeatureInst.mk 100 200 0], f.start < f.stop)
    ∧ (∀ r ∈ [((90 : Nat), (110 : Nat)), (150, 160), (300, 400)], r.1 < r.2)
    ∧ depthCount [FeatureInst.mk 100 200 0] 12
        [(90, 110), (150, 160), (300, 400)] 0
      = [((90 : Nat), (110 : Nat)), (150, 160), (300, 400)].countP
          (fun r => [FeatureInst.mk 100 200 0].any
            (fun f => decide (f.id_idx = 0) && overlapsB f r))
    ∧ depthCount [FeatureInst.mk 100 200 0] 12
        [(90, 110), (150, 160), (300, 400)] 0 = 2 :=
  ⟨by decide, by decide,
    c5_depth_counts [FeatureInst.mk 100 200 0] 12
      [(90, 110), (150, 160), (300, 400)] (by decide) (by decide) 0,
    by decide⟩

/-! ## GOF loader (`src/index_loader/gof.rs`)

`GofMap::index`/`index_cached` collects the entries into a hash map keyed by
`feature_id` (later duplicates overwrite), and `roots_to_offsets` walks the
requested roots in order, emitting `(root, start, end)` for the ones present
and silently skipping the rest.  The parallel branch (rayon's indexed
`par_iter().filter_map().collect()`, taken when `threads > 1 &&
roots.len() > 2048`) also preserves input order; it is modelled by the same
sequential loop. -/

structure GofEntry where
  feature_id : Nat
  start_offset : Nat
  end_offset : Nat
  deriving DecidableEq, Repr

/-- The `FID -> (start, end)` hash map built from the entry list: inserting in
order, later entries overwrite earlier ones. -/
def gofIndex (entries : List GofEntry) : Nat → Option (Nat × Nat) :=
  entries.foldl
    (fun m e => fun k =>
      if k = e.feature_id then some (e.start_offset, e.end_offset) else m k)
    (fun _ => none)

/-- The per-root loop body of `roots_to_offsets`. -/
def rootsToOffsetsGo (idx : Nat → Option (Nat × Nat)) :
    List Nat → List (Nat × Nat × Nat)
  | [] => []
  | r :: rest =>
      match idx r with
      | some (s, e) => (r, s, e) :: rootsToOffsetsGo idx rest
      | none => rootsToOffsetsGo idx rest

/-- `GofMap::roots_to_offsets`. -/
def rootsToOffsets (entries : List GofEntry) (roots : List Nat)
    (threads : Nat) : List (Nat × Nat × Nat) :=
  if 1 < threads ∧ 2048 < roots.length
  then rootsToOffsetsGo (gofIndex entries) roots
  else rootsToOffsetsGo (gofIndex entries) roots

/-- The hash map lookup is the last matching entry. -/
theorem gofIndex_eq_find_reverse (entries : List GofEntry) (k : Nat) :
    gofIndex entries k
      = (entries.reverse.find? (fun e => decide (e.feature_id = k))).map
          (fun e => (e.start_offset, e.end_offset)) := by
  suffices h : ∀ (m : Nat → Option (Nat × Nat)),
      entries.foldl
        (fun m e => fun k =>
          if k = e.feature_id then some (e.start_offset, e.end_offset) else m k)
        m k
      = ((entries.reverse.find? (fun e => decide (e.feature_id = k))).map
          (fun e => (e.start_offset, e.end_offset))).or (m k) by
    rw [gofIndex, h]
    exact Option.or_none
  induction entries with
  | nil => intro m; rfl
  | cons e rest ih =>
      intro m
      rw [List.foldl_cons, ih, List.reverse_cons, List.find?_append]
      rcases hf : rest.reverse.find? (fun e => decide (e.feature_id = k)) with _ | e2
      · rw [hf]
        by_cases hk : k = e.feature_id
        · simp [List.find?, hk]
        · have hne : (decide (e.feature_id = k)) = false := by
            simp
            omega
          simp [List.find?, hne, hk]
      · rw [hf]
        simp

theorem rootsToOffsetsGo_eq_filterMap (idx : Nat → Option (Nat × Nat))
    (roots : List Nat) :
    rootsToOffsetsGo idx roots
      = roots.filterMap (fun r => (idx r).map (fun p => (r, p.1, p.2))) := by
  induction roots with
  | nil => rfl
  | cons r rest ih =>
      cases h : idx r with
      | none => simp [rootsToOffsetsGo, List.filterMap_cons, h, ih]
      | some p => simp [rootsToOffsetsGo, List.filterMap_cons, h, ih]

/-- C10: under the non-parallel condition (`threads <= 1` or at most 2048
roots), `roots_to_offsets` returns, in input order, exactly one
`(root, start, end)` triple per input root that has a `.gof` entry — the
offsets being those of the (last) entry for that root — and silently omits
input roots with no entry. -/
theorem c10_roots_to_offsets (entries : List GofEntry) (roots : List Nat)
    (threads : Nat) (h : threads ≤ 1 ∨ roots.length ≤ 2048) :
    rootsToOffsets entries roots threads
      = roots.filterMap (fun r =>
          (entries.reverse.find? (fun e => decide (e.feature_id = r))).map
            (fun e => (r, e.start_offset, e.end_offset)))
    ∧ ∀ r ∈ roots, ((∃ e ∈ entries, e.feature_id = r) ↔
        ∃ p : Nat × Nat, (r, p.1, p.2) ∈ rootsToOffsets entries roots threads) := by
  have hbody : rootsToOffsets entries roots threads
      = roots.filterMap (fun r =>
          (entries.reverse.find? (fun e => decide (e.feature_id = r))).map
            (fun e => (r, e.start_offset, e.end_offset))) := by
    rw [rootsToOffsets, if_neg (by omega), rootsToOffsetsGo_eq_filterMap]
    apply List.filterMap_congr
    intro r _
    rw [gofIndex_eq_find_reverse, Option.map_map]
    rfl
  refine ⟨hbody, ?_⟩
  intro r hr
  rw [hbody]
  constructor
  · rintro ⟨e, he, heid⟩
    have hfind : (entries.reverse.find?
        (fun e => decide (e.feature_id = r))).isSome := by
      rw [List.find?_isSome]
      exact ⟨e, by rw [List.mem_reverse]; exact he, by simp [heid]⟩
    rcases hfs : entries.reverse.find? (fun e => decide (e.feature_id = r))
      with _ | e2
    · rw [hfs] at hfind
      exact absurd hfind (by simp)
    · refine ⟨(e2.start_offset, e2.end_offset), ?_⟩
      rw [List.mem_filterMap]
      exact ⟨r, hr, by rw [hfs]; rfl⟩
  · rintro ⟨p, hp⟩
    rw [List.mem_filterMap] at hp
    obtain ⟨r2, hr2, hmap⟩ := hp
    rcases hfs : entries.reverse.find? (fun e => decide (e.feature_id = r2))
      with _ | e2
    · rw [hfs] at hmap
      exact absurd hmap (by simp)
    · rw [hfs] at hmap
      have hinj : (r2, e2.start_offset, e2.end_offset) = (r, p.1, p.2) :=
        Option.some.inj hmap
      have heq : r2 = r := by
        have := congrArg (fun t => t.1) hinj
        simpa using this
      subst heq
      have hmem := List.mem_reverse.mp (List.mem_of_find?_eq_some hfs)
      have hpred := List.find?_some hfs
      simp at hpred
      exact ⟨e2, hmem, hpred⟩

/-- Witness for `c10_roots_to_offsets`: roots 7 (present), 3 (absent), 7
again, with 2 threads and 3 roots (non-parallel path). -/
theorem c10_roots_to_offsets_witness :
    ((2 : Nat) ≤ 1 ∨ ([7, 3, 7] : List Nat).length ≤ 2048)
    ∧ (rootsToOffsets [GofEntry.mk 7 100 200, GofEntry.mk 9 200 300]
          [7, 3, 7] 2
        = [7, 3, 7].filterMap (fun r =>
            (([GofEntry.mk 7 100 200, GofEntry.mk 9 200 300].reverse.find?
              (fun e => decide (e.feature_id = r))).map
              (fun e => (r, e.start_offset, e.end_offset))))
      ∧ ∀ r ∈ [7, 3, 7],
          ((∃ e ∈ [GofEntry.mk 7 100 200, GofEntry.mk 9 200 300],
            e.feature_id = r) ↔
          ∃ p : Nat × Nat, (r, p.1, p.2) ∈ rootsToOffsets
            [GofEntry.mk 7 100 200, GofEntry.mk 9 200 300] [7, 3, 7] 2)) :=
  ⟨Or.inr (by decide),
    c10_roots_to_offsets [GofEntry.mk 7 100 200, GofEntry.mk 9 200 300]
      [7, 3, 7] 2 (Or.inr (by decide))⟩


/-! ## `.atn` loader (`src/index_loader/core.rs::load_atn`)

The file is scanned newline-segment by newline-segment (the input list holds
the segments before each `\n`; an unterminated trailing segment is never
processed by the loop and is therefore not part of the input here).  Empty
segments are skipped; each other segment is trimmed; a `#attribute=` line
(re)sets the attribute name; any other non-`#` line, including one that trims
to the empty string, is pushed as a value.  After the scan the loader fails
exactly when the attribute name is still empty.  String trimming and prefix
tests are modelled on the character lists (`trim` removes ASCII whitespace,
which is what the data at hand contains). -/

def wsChar (c : Char) : Bool :=
  decide (c = ' ') || decide (c = '\t') || decide (c = '\r') || decide (c = '\n')

/-- `str::trim`. -/
def trimChars (l : List Char) : List Char :=
  ((l.dropWhile wsChar).reverse.dropWhile wsChar).reverse

def atnErrMsg : String := "Missing attribute= header in .atn file"

def loadAtnStep (st : String × List String) (slice : String) :
    String × List String :=
  if slice.data = [] then st
  else if "#attribute=".data.isPrefixOf (trimChars slice.data) then
    (String.mk ((trimChars slice.data).drop 11), st.2)
  else if "#".data.isPrefixOf (trimChars slice.data) then st
  else (st.1, st.2 ++ [String.mk (trimChars slice.data)])

def loadAtn (lines : List String) : Except String (String × List String) :=
  if (lines.foldl loadAtnStep ("", [])).1 = "" then Except.error atnErrMsg
  else Except.ok (lines.foldl loadAtnStep ("", []))

/-- The keys of all `#attribute=` header lines, in file order. -/
def atnHeaderKeys (lines : List String) : List String :=
  lines.filterMap (fun slice =>
    if slice.data = [] then none
    else if "#attribute=".data.isPrefixOf (trimChars slice.data) then
      some (String.mk ((trimChars slice.data).drop 11))
    else none)

/-- The non-comment, non-empty-segment values, trimmed, in file order. -/
def atnValues (lines : List String) : List String :=
  lines.filterMap (fun slice =>
    if slice.data = [] then none
    else if "#attribute=".data.isPrefixOf (trimChars slice.data) then none
    else if "#".data.isPrefixOf (trimChars slice.data) then none
    else some (String.mk (trimChars slice.data)))

theorem loadAtn_fold (lines : List String) :
    ∀ (a0 : String) (vs0 : List String),
      lines.foldl loadAtnStep (a0, vs0)
        = ((atnHeaderKeys lines).getLastD a0, vs0 ++ atnValues lines) := by
  induction lines with
  | nil =>
      intro a0 vs0
      simp [atnHeaderKeys, atnValues]
  | cons l ls ih =>
      intro a0 vs0
      rw [List.foldl_cons]
      by_cases h1 : l.data = []
      · rw [atnHeaderKeys, atnValues, List.filterMap_cons, List.filterMap_cons]
        simp only [if_pos h1]
        rw [← atnHeaderKeys, ← atnValues, loadAtnStep, if_pos h1]
        exact ih a0 vs0
      · by_cases h2 : "#attribute=".data.isPrefixOf (trimChars l.data)
        · rw [atnHeaderKeys, atnValues, List.filterMap_cons, List.filterMap_cons]
          simp only [if_neg h1, if_pos h2]
          rw [← atnHeaderKeys, ← atnValues, loadAtnStep, if_neg h1, if_pos h2]
          rw [ih (String.mk ((trimChars l.data).drop 11)) vs0]
          rw [List.getLastD_cons]
        · by_cases h3 : "#".data.isPrefixOf (trimChars l.data)
          · rw [atnHeaderKeys, atnValues, List.filterMap_cons,
              List.filterMap_cons]
            simp only [if_neg h1, if_neg h2, if_pos h3]
            rw [← atnHeaderKeys, ← atnValues, loadAtnStep, if_neg h1,
              if_neg h2, if_pos h3]
            exact ih a0 vs0
          · rw [atnHeaderKeys, atnValues, List.filterMap_cons,
              List.filterMap_cons]
            simp only [if_neg h1, if_neg h2, if_neg h3]
            rw [← atnHeaderKeys, ← atnValues, loadAtnStep, if_neg h1,
              if_neg h2, if_neg h3]
            rw [ih a0 (vs0 ++ [String.mk (trimChars l.data)]),
              List.append_assoc]
            rfl

/-- C9 (amended): `load_atn` fails exactly when the last `#attribute=` header
key (with no header counting as the empty key) is empty — a missing header is
fatal, but a duplicated header is not: the last occurrence silently wins —
and on success returns that last key together with the trimmed non-comment
lines, comments other than the header being ignored. -/
theorem c9_load_atn_characterization (lines : List String) :
    loadAtn lines
      = if (atnHeaderKeys lines).getLastD "" = ""
        then Except.error atnErrMsg
        else Except.ok ((atnHeaderKeys lines).getLastD "", atnValues lines) := by
  rw [loadAtn, loadAtn_fold lines "" []]
  by_cases h : (atnHeaderKeys lines).getLastD "" = ""
  · rw [if_pos h, if_pos h]
  · rw [if_neg h, if_neg h, List.nil_append]

/-- C9 counterexample: a file whose `#attribute=` header appears twice is NOT
rejected — `load_atn` succeeds and silently returns the second key. -/
theorem c9_duplicate_header_not_fatal :
    loadAtn ["#attribute=gene_name", "#attribute=locus", "BRCA1"]
      = Except.ok ("locus", ["BRCA1"])
    ∧ ("#attribute=gene_name" : String) ≠ "#attribute=locus" := by
  constructor
  · rfl
  · decide


/-! ## Index builder (`src/index_builder/core.rs::build_index`)

The first pass splits the mmap on `\n` and parses each non-comment line into
a `RawFeature`.  The file is modelled as the list of its newline-terminated
lines (offsets are the cumulative byte sizes, each line contributing
`utf8 size + 1`).  The regex captures `ID=([^;\s]+)`, `Parent=([^;\s]+)` and
`<key>=([^;]+)` are modelled by `findCapture`, which scans left to right for
an occurrence of the literal key followed by at least one non-stop character,
exactly like the regex engine. -/

structure RawFeature where
  seqid : String
  start : Nat
  stop : Nat
  line_offset : Nat
  id : String
  parent : Option String
  attr : Option String
  deriving DecidableEq, Repr

/-- `line.split('\t')` (keeps empty fields). -/
def splitTabs : List Char → List (List Char)
  | [] => [[]]
  | c :: rest =>
      if c = '\t' then [] :: splitTabs rest
      else
        match splitTabs rest with
        | [] => [[c]]
        | f :: r => (c :: f) :: r

/-- Digit run of `u32::from_str` (no sign handled here). -/
def parseDigits : List Char → Option Nat
  | [] => none
  | [c] => if c.isDigit then some (c.toNat - 48) else none
  | c :: rest =>
      if c.isDigit then
        match parseDigits rest with
        | some v => some ((c.toNat - 48) * 10 ^ rest.length + v)
        | none => none
      else none

/-- `str::parse::<u32>()`: optional `+`, at least one digit, fits in 32 bits. -/
def parseU32 (l : List Char) : Option Nat :=
  match (if l.head? = some '+' then l.drop 1 else l) with
  | l2 =>
      match parseDigits l2 with
      | some v => if v < 4294967296 then some v else none
      | none => none

/-- Leftmost regex match of `KEY([^stop]+)`: at each position, if the literal
key occurs and a nonempty run of non-stop characters follows, capture that
run; otherwise continue scanning one character further. -/
def findCapture (key : List Char) (stop : Char → Bool) :
    List Char → Option (List Char)
  | [] => none
  | c :: rest =>
      if key.isPrefixOf (c :: rest) then
        match ((c :: rest).drop key.length).takeWhile (fun ch => !stop ch) with
        | [] => findCapture key stop rest
        | cap => some cap
      else findCapture key stop rest

/-- The `\s` class of the `ID=`/`Parent=` captures plus `;`. -/
def stopSemiWs (c : Char) : Bool :=
  decide (c = ';') || wsChar c || decide (c = '\x0b') || decide (c = '\x0c')

/-- The stop class of the attribute capture `=([^;]+)`: `;` only. -/
def stopSemi (c : Char) : Bool :=
  decide (c = ';')

/-- One line of the first pass.  `ok none` models `continue` (comment, blank,
skipped type, `end == 0`); `error` models `bail!`/`?`. -/
def parseGffLine (attrKey : String) (skipTypes : List String)
    (lineOffset : Nat) (line : String) : Except String (Option RawFeature) :=
  if line.data = [] then .ok none
  else if line.data.head? = some '#' then .ok none
  else if trimChars line.data = [] then .ok none
  else if (splitTabs (trimChars line.data)).length ≠ 9 then
    .error "Invalid GFF line (expected 9 columns)"
  else if skipTypes.contains
      (String.mk ((splitTabs (trimChars line.data)).getD 2 [])) then .ok none
  else
    match parseU32 ((splitTabs (trimChars line.data)).getD 3 []),
        parseU32 ((splitTabs (trimChars line.data)).getD 4 []) with
    | some s1, some e1 =>
        if e1 = 0 then .ok none
        else
          match findCapture "ID=".data stopSemiWs (trimChars line.data) with
          | none => .error "Missing ID in feature"
          | some idc =>
              .ok (some
                { seqid := String.mk ((splitTabs (trimChars line.data)).getD 0 [])
                  start := (if e1 < s1 then e1 else s1) - 1
                  stop := if e1 < s1 then s1 else e1
                  line_offset := lineOffset
                  id := String.mk idc
                  parent := (findCapture "Parent=".data stopSemiWs
                    (trimChars line.data)).map String.mk
                  attr := (findCapture (attrKey ++ "=").data stopSemi
                    (trimChars line.data)).map String.mk })
    | _, _ => .error "invalid start or end"

/-- The byte size a line contributes to the offsets (`+1` for its `\n`). -/
def lineSize (l : String) : Nat := l.utf8ByteSize + 1

/-- First pass over all lines, threading the byte offset. -/
def parseGffGo (attrKey : String) (skipTypes : List String) :
    Nat → List String → Except String (List RawFeature)
  | _, [] => .ok []
  | off, line :: rest =>
      match parseGffLine attrKey skipTypes off line with
      | .error e => .error e
      | .ok none => parseGffGo attrKey skipTypes (off + lineSize line) rest
      | .ok (some rf) =>
          match parseGffGo attrKey skipTypes (off + lineSize line) rest with
          | .error e => .error e
          | .ok raw => .ok (rf :: raw)

/-- `skip_types.split(',')` (keeps empty fields; the default empty string
yields the set containing only the empty type). -/
def splitCommas : List Char → List (List Char)
  | [] => [[]]
  | c :: rest =>
      if c = ',' then [] :: splitCommas rest
      else
        match splitCommas rest with
        | [] => [[c]]
        | f :: r => (c :: f) :: r

/-- The raw-feature list of `build_index`'s first pass; the skip set is
`skip_types.split(',')`. -/
def parseGff (attrKey skipTypesStr : String) (lines : List String) :
    Except String (List RawFeature) :=
  parseGffGo attrKey ((splitCommas skipTypesStr.data).map String.mk) 0 lines

/-- Byte offset of line `i`. -/
def lineOff (lines : List String) (i : Nat) : Nat :=
  ((lines.take i).map lineSize).sum

/-- Total file size (the offset one past the last line). -/
def fileSize (lines : List String) : Nat :=
  (lines.map lineSize).sum

theorem lineOff_succ (lines : List String) (i : Nat) (hi : i < lines.length) :
    lineOff lines (i + 1) = lineOff lines i + lineSize (lines.getD i "") := by
  rw [lineOff, lineOff, List.map_take, List.map_take]
  have hb : i < (lines.map lineSize).length := by simpa using hi
  rw [List.sum_take_succ _ i hb, List.getElem_map]
  rw [List.getD_eq_getElem _ _ hi]

theorem lineOff_mono (lines : List String) {i j : Nat} (h : i ≤ j) :
    lineOff lines i ≤ lineOff lines j := by
  rw [lineOff, lineOff]
  induction j with
  | zero =>
      have : i = 0 := Nat.le_zero.mp h
      subst this
      exact Nat.le_refl _
  | succ j ih =>
      by_cases hij : i ≤ j
      · refine Nat.le_trans (ih hij) ?_
        rw [List.take_succ, List.map_append, List.sum_append]
        exact Nat.le_add_right _ _
      · have : i = j + 1 := by omega
        subst this
        exact Nat.le_refl _

theorem lineOff_strict (lines : List String) {i j : Nat} (hij : i < j)
    (hi : i < lines.length) :
    lineOff lines i < lineOff lines j := by
  have h1 : lineOff lines (i + 1) = lineOff lines i + lineSize (lines.getD i "") :=
    lineOff_succ lines i hi
  have h2 : lineOff lines (i + 1) ≤ lineOff lines j := lineOff_mono lines hij
  have h3 : 0 < lineSize (lines.getD i "") := by
    rw [lineSize]
    omega
  omega

theorem lineOff_le_fileSize (lines : List String) (i : Nat) :
    lineOff lines i ≤ fileSize lines := by
  rw [lineOff, fileSize]
  conv_rhs => rw [← List.take_append_drop i lines]
  rw [List.map_append, List.sum_append]
  exact Nat.le_add_right _ _


/-! ## Hash maps of the builder, with an adversarial bucket-order oracle

`build_index` uses two `FxHashMap`s (`feature_map` and `attr_value_to_id`)
purely through insert/lookup — it never iterates them — so its output cannot
depend on their internal ordering.  To prove that, the maps are modelled as
association lists in which each insertion places the (unique) binding at an
arbitrary position chosen by an oracle, and the artifacts are shown to be the
same for every oracle. -/

def oErase (k : String) (m : List (String × Nat)) : List (String × Nat) :=
  m.filter (fun p => !decide (p.1 = k))

/-- Insert `(k, v)`, replacing any existing binding of `k`, at the
oracle-chosen position `pos` (clamped into the list by `take`/`drop`). -/
def oInsert (pos : Nat) (k : String) (v : Nat) (m : List (String × Nat)) :
    List (String × Nat) :=
  (oErase k m).take pos ++ (k, v) :: (oErase k m).drop pos

def oLookup (m : List (String × Nat)) (k : String) : Option Nat :=
  (m.find? (fun p => decide (p.1 = k))).map (fun p => p.2)

theorem find?_oErase_self (k : String) (m : List (String × Nat)) :
    (oErase k m).find? (fun p => decide (p.1 = k)) = none := by
  rw [List.find?_eq_none]
  intro p hp
  have := (List.mem_filter.mp hp).2
  simpa using this

theorem find?_oErase_other (k k2 : String) (m : List (String × Nat))
    (h : k2 ≠ k) :
    (oErase k m).find? (fun p => decide (p.1 = k2))
      = m.find? (fun p => decide (p.1 = k2)) := by
  induction m with
  | nil => rfl
  | cons p rest ih =>
      by_cases hp : p.1 = k
      · have hfr : (p :: rest).filter (fun q => !decide (q.1 = k))
            = rest.filter (fun q => !decide (q.1 = k)) := by
          rw [List.filter_cons]
          simp [hp]
        have h1 : (decide (p.1 = k2)) = false := by
          rw [hp]
          simp
          exact fun hc => h hc.symm
        rw [oErase, hfr, ← oErase, ih, List.find?_cons, h1]
      · have hfr : (p :: rest).filter (fun q => !decide (q.1 = k))
            = p :: rest.filter (fun q => !decide (q.1 = k)) := by
          rw [List.filter_cons]
          simp [hp]
        rw [oErase, hfr]
        rw [List.find?_cons, List.find?_cons]
        rcases hpk : (decide (p.1 = k2)) with _ | _
        · rw [← oErase, ih]
        · rfl

/-- The only observable of an oracle-placed insert is the map it represents. -/
theorem oLookup_oInsert (pos : Nat) (k : String) (v : Nat)
    (m : List (String × Nat)) (k2 : String) :
    oLookup (oInsert pos k v m) k2
      = if k2 = k then some v else oLookup m k2 := by
  rw [oInsert, oLookup, List.find?_append]
  by_cases h : k2 = k
  · subst h
    have htake : ((oErase k2 m).take pos).find?
        (fun p => decide (p.1 = k2)) = none := by
      rw [List.find?_eq_none]
      intro p hp
      have hmem : p ∈ oErase k2 m := List.mem_of_mem_take hp
      have := (List.mem_filter.mp hmem).2
      simpa using this
    rw [htake, Option.none_or, List.find?_cons]
    simp
  · rw [if_neg h]
    have hk : (decide (((k, v) : String × Nat).1 = k2)) = false := by
      simp
      exact fun hc => h hc.symm
    rw [List.find?_cons, hk]
    rw [← List.find?_append, List.take_append_drop,
      find?_oErase_other k k2 m h]
    rfl

/-- `feature_map` with the oracle: `feature_map.insert(rf.id.clone(), i)`
over the enumerated raw features. -/
def featureMapO (σ : Nat → Nat) (raw : List RawFeature) : List (String × Nat) :=
  raw.enum.foldl (fun m p => oInsert (σ p.1) p.2.id p.1 m) []

/-- The function the feature map denotes: the last index inserted for a key. -/
def featureMapFun (raw : List RawFeature) : String → Option Nat :=
  raw.enum.foldl (fun f p => fun k => if k = p.2.id then some p.1 else f k)
    (fun _ => none)

theorem featureMapO_lookup (σ : Nat → Nat) (raw : List RawFeature)
    (k : String) :
    oLookup (featureMapO σ raw) k = featureMapFun raw k := by
  rw [featureMapO, featureMapFun]
  suffices h : ∀ (ps : List (Nat × RawFeature)) (m : List (String × Nat))
      (f : String → Option Nat), (∀ k2, oLookup m k2 = f k2) →
      ∀ k2, oLookup (ps.foldl (fun m p => oInsert (σ p.1) p.2.id p.1 m) m) k2
        = (ps.foldl (fun f p => fun k2 =>
            if k2 = p.2.id then some p.1 else f k2) f) k2 by
    exact h raw.enum [] (fun _ => none) (fun _ => rfl) k
  intro ps
  induction ps with
  | nil => intro m f hmf k2; exact hmf k2
  | cons p rest ih =>
      intro m f hmf k2
      rw [List.foldl_cons, List.foldl_cons]
      refine ih _ _ ?_ k2
      intro k3
      rw [oLookup_oInsert]
      by_cases h : k3 = p.2.id
      · rw [if_pos h, if_pos h]
      · rw [if_neg h, if_neg h]
        exact hmf k3

/-- `fid = feature_map[&rf.id]` (the entry always exists; `0` is a formal
default). -/
def fidOf (fmap : String → Option Nat) (rf : RawFeature) : Nat :=
  (fmap rf.id).getD 0

/-- `parent_id`: the referenced feature if present and resolvable, else the
feature itself. -/
def parentIdOf (fmap : String → Option Nat) (rf : RawFeature) : Nat :=
  (rf.parent.bind fmap).getD (fidOf fmap rf)

/-- First-seen index in a list (the `IndexMap` lookup and the denotation of
`attr_value_to_id`). -/
def listIdxOf (v : String) : List String → Option Nat
  | [] => none
  | w :: rest => if w = v then some 0 else (listIdxOf v rest).map (· + 1)

theorem listIdxOf_append_one (v w : String) (atn : List String) :
    listIdxOf v (atn ++ [w])
      = (listIdxOf v atn).or (if w = v then some atn.length else none) := by
  induction atn with
  | nil =>
      rw [List.nil_append, listIdxOf, listIdxOf]
      by_cases h : w = v
      · rw [if_pos h, if_pos h]
        rfl
      · rw [if_neg h, if_neg h]
        rfl
  | cons u rest ih =>
      rw [List.cons_append, listIdxOf, listIdxOf]
      by_cases h : u = v
      · rw [if_pos h, if_pos h]
        rfl
      · rw [if_neg h, if_neg h, ih]
        rcases listIdxOf v rest with _ | a
        · by_cases hw : w = v
          · rw [if_pos hw, if_pos hw]
            simp [Option.or, List.length_cons]
          · rw [if_neg hw, if_neg hw]
            rfl
        · rfl

/-- `attr_value_to_id` / `atn_entries` step with the oracle: state is
`(hash map, a2f so far, atn so far)`. -/
def a2fStepO (σ : Nat → Nat)
    (st : List (String × Nat) × List Nat × List String)
    (attr : Option String) :
    List (String × Nat) × List Nat × List String :=
  match attr with
  | none => (st.1, st.2.1 ++ [U32MAX], st.2.2)
  | some v =>
      match oLookup st.1 v with
      | some a => (st.1, st.2.1 ++ [a], st.2.2)
      | none => (oInsert (σ st.2.2.length) v st.2.2.length st.1,
          st.2.1 ++ [st.2.2.length], st.2.2 ++ [v])

/-- The canonical (oracle-free) step: the map is the first-seen index in the
`atn` list itself. -/
def a2fStepC (st : List Nat × List String) (attr : Option String) :
    List Nat × List String :=
  match attr with
  | none => (st.1 ++ [U32MAX], st.2)
  | some v =>
      match listIdxOf v st.2 with
      | some a => (st.1 ++ [a], st.2)
      | none => (st.1 ++ [st.2.length], st.2 ++ [v])

def a2fFoldO (σ : Nat → Nat) (attrs : List (Option String)) :
    List Nat × List String :=
  (attrs.foldl (a2fStepO σ) ([], [], [])).2

theorem a2fFoldO_eq_canon (σ : Nat → Nat) (attrs : List (Option String)) :
    a2fFoldO σ attrs = attrs.foldl a2fStepC ([], []) := by
  rw [a2fFoldO]
  suffices h : ∀ (as : List (Option String))
      (aMap : List (String × Nat)) (a2f : List Nat) (atn : List String),
      (∀ v, oLookup aMap v = listIdxOf v atn) →
      (as.foldl (a2fStepO σ) (aMap, a2f, atn)).2
        = as.foldl a2fStepC (a2f, atn) by
    exact h attrs [] [] [] (fun v => rfl)
  intro as
  induction as with
  | nil => intro aMap a2f atn hinv; rfl
  | cons a rest ih =>
      intro aMap a2f atn hinv
      rw [List.foldl_cons, List.foldl_cons]
      rcases a with _ | v
      · exact ih aMap (a2f ++ [U32MAX]) atn hinv
      · rw [a2fStepO, a2fStepC, hinv v]
        rcases hv : listIdxOf v atn with _ | a0
        · refine ih _ _ _ ?_
          intro v2
          rw [oLookup_oInsert, listIdxOf_append_one]
          by_cases h : v2 = v
          · subst h
            rw [if_pos rfl, if_pos rfl]
            show some atn.length = (listIdxOf v2 atn).or (some atn.length)
            rw [hv]
            rfl
          · rw [if_neg h]
            show oLookup aMap v2 = (listIdxOf v2 atn).or
              (if v = v2 then some atn.length else none)
            rw [hinv v2]
            have hvv : (if v = v2 then some atn.length else none) = none := by
              rw [if_neg (fun hc => h hc.symm)]
            rw [hvv, Option.or_none]
        · exact ih aMap (a2f ++ [a0]) atn hinv


/-! ## Second pass of the builder: `.gof`, `.sqs`, interval trees -/

/-- `seqid_to_num`/`trees_input` are `IndexMap`s: insertion-ordered.  SIDs are
dense, so the map is just the key list (SID = position); the trees input is
an insertion-ordered association list. -/
def addToTrees (ti : List (Nat × List (Nat × Nat × Nat))) (sid : Nat)
    (iv : Nat × Nat × Nat) : List (Nat × List (Nat × Nat × Nat)) :=
  match ti with
  | [] => [(sid, [iv])]
  | (s, l) :: rest =>
      if s = sid then (s, l ++ [iv]) :: rest
      else (s, l) :: addToTrees rest sid iv

def lookupTrees (ti : List (Nat × List (Nat × Nat × Nat))) (sid : Nat) :
    List (Nat × Nat × Nat) :=
  ((ti.find? (fun p => decide (p.1 = sid))).map (fun p => p.2)).getD []

structure BState where
  seqids : List String
  treesInput : List (Nat × List (Nat × Nat × Nat))
  curRoot : Option (Nat × Nat × Nat)
  gof : List (Nat × Nat × Nat × Nat)
  deriving DecidableEq, Repr

/-- One feature of the second pass: on a root, resolve/assign the SID, append
the interval, close the previous root's GOF record at this line's offset and
open a new current root; otherwise leave the state unchanged.
`curRoot = (fid, line_offset, sid)`; a GOF record is
`(root_fid, sid, start_off, end_off)`. -/
def gofStep (fmap : String → Option Nat) (st : BState) (rf : RawFeature) :
    BState :=
  if parentIdOf fmap rf = fidOf fmap rf then
    { seqids :=
        match listIdxOf rf.seqid st.seqids with
        | some _ => st.seqids
        | none => st.seqids ++ [rf.seqid]
      treesInput := addToTrees st.treesInput
        ((listIdxOf rf.seqid st.seqids).getD st.seqids.length)
        (rf.start, rf.stop, fidOf fmap rf)
      curRoot := some (fidOf fmap rf, rf.line_offset,
        (listIdxOf rf.seqid st.seqids).getD st.seqids.length)
      gof :=
        match st.curRoot with
        | some c => st.gof ++ [(c.1, c.2.2, c.2.1, rf.line_offset)]
        | none => st.gof }
  else st

/-- Close the last root at the file length. -/
def finishGof (st : BState) (fileLen : Nat) : List (Nat × Nat × Nat × Nat) :=
  match st.curRoot with
  | some c => st.gof ++ [(c.1, c.2.2, c.2.1, fileLen)]
  | none => st.gof

structure Artifacts where
  fts : List String
  sqs : List String
  atn : List String
  a2f : List Nat
  prt : List Nat
  gof : List (Nat × Nat × Nat × Nat)
  trees : List IntervalTree
  deriving DecidableEq, Repr

/-- Assemble the artifacts from the feature-map function, the attribute
interning result and the raw features.  The `.rit`/`.rix` files are the
(deterministic) serialization of `trees` and its cumulative byte offsets, so
their bytes are a function of `trees`. -/
def buildArtifactsWith (fmap : String → Option Nat)
    (a2fres : List Nat × List String) (attrKey : String)
    (raw : List RawFeature) (fileLen : Nat) : Artifacts :=
  { fts := raw.map (fun rf => rf.id)
    sqs := (raw.foldl (gofStep fmap) ⟨[], [], none, []⟩).seqids
    atn := ("#attribute=" ++ attrKey) :: a2fres.2
    a2f := a2fres.1
    prt := raw.map (fun rf => parentIdOf fmap rf)
    gof := finishGof (raw.foldl (gofStep fmap) ⟨[], [], none, []⟩) fileLen
    trees := ((raw.foldl (gofStep fmap) ⟨[], [], none, []⟩).seqids.enum).map
      (fun p => IntervalTree.new
        ((lookupTrees (raw.foldl (gofStep fmap) ⟨[], [], none, []⟩).treesInput
          p.1).map (fun t => Interval.mk t.1 t.2.1 t.2.2))) }

/-- `build_index` with the two hash-map bucket oracles made explicit. -/
def buildIndexO (σf σa : Nat → Nat) (attrKey skipTypesStr : String)
    (lines : List String) : Except String Artifacts :=
  match parseGff attrKey skipTypesStr lines with
  | .error e => .error e
  | .ok raw => .ok (buildArtifactsWith
      (fun k => oLookup (featureMapO σf raw) k)
      (a2fFoldO σa (raw.map (fun rf => rf.attr)))
      attrKey raw (fileSize lines))

/-- `build_index` (any fixed oracle: by C7 they all agree). -/
def buildIndex (attrKey skipTypesStr : String) (lines : List String) :
    Except String Artifacts :=
  buildIndexO (fun _ => 0) (fun _ => 0) attrKey skipTypesStr lines

/-- C7: the builder's artifacts do not depend on the hash maps' internal
ordering — two runs with arbitrary (different) bucket-position oracles, on
the same input, attribute key and skip list, produce identical artifacts,
hence byte-identical `.fts`, `.sqs`, `.atn`, `.a2f`, `.prt`, `.gof` files and
identical interval trees (so byte-identical `.rit`/`.rix`).  The builder is
single-threaded, so no thread schedule enters the model. -/
theorem c7_build_index_deterministic (σf σa τf τa : Nat → Nat)
    (attrKey skipTypesStr : String) (lines : List String) :
    buildIndexO σf σa attrKey skipTypesStr lines
      = buildIndexO τf τa attrKey skipTypesStr lines := by
  rw [buildIndexO, buildIndexO]
  rcases hp : parseGff attrKey skipTypesStr lines with e | raw
  · rfl
  · have hf : (fun k => oLookup (featureMapO σf raw) k)
        = (fun k => oLookup (featureMapO τf raw) k) := by
      funext k
      rw [featureMapO_lookup, featureMapO_lookup]
    have ha : a2fFoldO σa (raw.map (fun rf => rf.attr))
        = a2fFoldO τa (raw.map (fun rf => rf.attr)) := by
      rw [a2fFoldO_eq_canon, a2fFoldO_eq_canon]
    show Except.ok (buildArtifactsWith
        (fun k => oLookup (featureMapO σf raw) k)
        (a2fFoldO σa (raw.map (fun rf => rf.attr)))
        attrKey raw (fileSize lines))
      = Except.ok (buildArtifactsWith
        (fun k => oLookup (featureMapO τf raw) k)
        (a2fFoldO τa (raw.map (fun rf => rf.attr)))
        attrKey raw (fileSize lines))
    rw [hf, ha]


/-! ## C8: the byte ranges recorded in `.gof` -/

theorem parseGffLine_offset (attrKey : String) (skipTypes : List String)
    (off : Nat) (line : String) (rf : RawFeature)
    (h : parseGffLine attrKey skipTypes off line = .ok (some rf)) :
    rf.line_offset = off := by
  rw [parseGffLine] at h
  split at h
  · simp at h
  · split at h
    · simp at h
    · split at h
      · simp at h
      · split at h
        · simp at h
        · split at h
          · simp at h
          · split at h
            · split at h
              · simp at h
              · split at h
                · simp at h
                · injection h with h1
                  injection h1 with h2
                  rw [← h2]
            · simp at h

/-- Offsets of the kept features of the first pass: each lies in the byte
range scanned, and they are strictly increasing in output order. -/
theorem parseGffGo_offsets (attrKey : String) (skipTypes : List String) :
    ∀ (lines : List String) (off : Nat) (raw : List RawFeature),
    parseGffGo attrKey skipTypes off lines = .ok raw →
    (∀ rf ∈ raw, off ≤ rf.line_offset ∧
      rf.line_offset < off + (lines.map lineSize).sum) ∧
    List.Pairwise (fun a b => a.line_offset < b.line_offset) raw := by
  intro lines
  induction lines with
  | nil =>
      intro off raw h
      rw [parseGffGo] at h
      injection h with h1
      rw [← h1]
      exact ⟨fun rf hrf => absurd hrf (List.not_mem_nil rf), List.Pairwise.nil⟩
  | cons line rest ih =>
      intro off raw h
      rw [parseGffGo] at h
      split at h
      · simp at h
      · obtain ⟨hb, hp⟩ := ih (off + lineSize line) raw h
        refine ⟨?_, hp⟩
        intro rf hrf
        obtain ⟨h1, h2⟩ := hb rf hrf
        rw [List.map_cons, List.sum_cons]
        omega
      · rename_i rf0 heq
        split at h
        · simp at h
        · rename_i raw2 heq2
          injection h with h1
          subst h1
          have hoff : rf0.line_offset = off :=
            parseGffLine_offset attrKey skipTypes off line rf0 heq
          obtain ⟨hb, hp⟩ := ih (off + lineSize line) raw2 heq2
          have hls : 0 < lineSize line := by
            rw [lineSize]
            omega
          constructor
          · intro rf hrf
            rcases List.mem_cons.mp hrf with h0 | h0
            · subst h0
              rw [List.map_cons, List.sum_cons, hoff]
              omega
            · obtain ⟨h1, h2⟩ := hb rf h0
              rw [List.map_cons, List.sum_cons]
              omega
          · refine List.Pairwise.cons ?_ hp
            intro rf hrf
            have h1 := (hb rf hrf).1
            rw [hoff]
            omega


/-- Two consecutive `.gof` records are back-to-back: the first's end offset
is the second's start offset.  A record is `(root_fid, sid, start, end)`. -/
def gofContig (p q : Nat × Nat × Nat × Nat) : Prop := p.2.2.2 = q.2.2.1

/-- Invariant of the second pass: folding `gofStep` over features with
monotone offsets keeps the closed GOF records contiguous, in-bounds, and
(after `finishGof`) ending exactly at `L`. -/
theorem gofFold_inv (fmap : String → Option Nat) :
    ∀ (raw : List RawFeature) (st : BState) (L : Nat),
    List.Chain' gofContig st.gof →
    (∀ g ∈ st.gof, g.2.2.1 ≤ g.2.2.2 ∧ g.2.2.2 ≤ L) →
    (match st.curRoot with
     | some c => (st.gof.getLast?.map (fun g => g.2.2.2) = some c.2.1
           ∨ st.gof = [])
         ∧ (∀ rf ∈ raw, c.2.1 ≤ rf.line_offset) ∧ c.2.1 ≤ L
     | none => st.gof = []) →
    List.Pairwise (fun a b => a.line_offset ≤ b.line_offset) raw →
    (∀ rf ∈ raw, rf.line_offset ≤ L) →
    List.Chain' gofContig (finishGof (raw.foldl (gofStep fmap) st) L) ∧
    (∀ g ∈ finishGof (raw.foldl (gofStep fmap) st) L,
      g.2.2.1 ≤ g.2.2.2 ∧ g.2.2.2 ≤ L) ∧
    ((finishGof (raw.foldl (gofStep fmap) st) L).getLast?.map
        (fun g => g.2.2.2) = some L
      ∨ finishGof (raw.foldl (gofStep fmap) st) L = []) := by
  intro raw
  induction raw with
  | nil =>
      intro st L h1 h2 h3 _ _
      rw [List.foldl_nil]
      rcases hc : st.curRoot with _ | c
      · have h3q : st.gof = [] := by rw [hc] at h3; exact h3
        have hf : finishGof st L = st.gof := by rw [finishGof, hc]
        rw [hf, h3q]
        exact ⟨List.chain'_nil,
          fun g hg => absurd hg (List.not_mem_nil g), Or.inr rfl⟩
      · obtain ⟨hlast, _, hcl⟩ :
            (st.gof.getLast?.map (fun g => g.2.2.2) = some c.2.1
              ∨ st.gof = [])
            ∧ (∀ rf ∈ ([] : List RawFeature), c.2.1 ≤ rf.line_offset)
            ∧ c.2.1 ≤ L := by rw [hc] at h3; exact h3
        have hf : finishGof st L = st.gof ++ [(c.1, c.2.2, c.2.1, L)] := by
          rw [finishGof, hc]
        rw [hf]
        refine ⟨?_, ?_, Or.inl ?_⟩
        · rw [List.chain'_append]
          refine ⟨h1, List.chain'_singleton _, ?_⟩
          intro x hx y hy
          rcases hlast with hl | hemp
          · rw [Option.mem_def] at hx
            rw [hx] at hl
            injection hl with he
            rw [Option.mem_def, List.head?_cons] at hy
            injection hy with hy2
            show x.2.2.2 = y.2.2.1
            rw [← hy2]
            exact he
          · rw [hemp, List.getLast?_nil] at hx
            simp at hx
        · intro g hg
          rcases List.mem_append.mp hg with h0 | h0
          · exact h2 g h0
          · rw [List.mem_singleton] at h0
            subst h0
            exact ⟨hcl, Nat.le_refl L⟩
        · rw [List.getLast?_concat]
          rfl
  | cons rf raw2 ih =>
      intro st L h1 h2 h3 h4 h5
      rw [List.foldl_cons]
      by_cases hr : parentIdOf fmap rf = fidOf fmap rf
      · rcases hc : st.curRoot with _ | c
        · have h3q : st.gof = [] := by rw [hc] at h3; exact h3
          have hg : (gofStep fmap st rf).gof = st.gof := by
            rw [gofStep, if_pos hr]
            show (match st.curRoot with
              | some c => st.gof ++ [(c.1, c.2.2, c.2.1, rf.line_offset)]
              | none => st.gof) = st.gof
            rw [hc]
          have hcur : (gofStep fmap st rf).curRoot
              = some (fidOf fmap rf, rf.line_offset,
                  (listIdxOf rf.seqid st.seqids).getD st.seqids.length) := by
            rw [gofStep, if_pos hr]
          refine ih (gofStep fmap st rf) L ?_ ?_ ?_
            (List.pairwise_cons.mp h4).2 ?_
          · rw [hg, h3q]
            exact List.chain'_nil
          · rw [hg, h3q]
            exact fun g hg2 => absurd hg2 (List.not_mem_nil g)
          · rw [hcur]
            refine ⟨Or.inr ?_, ?_, ?_⟩
            · rw [hg, h3q]
            · intro rf2 hrf2
              show rf.line_offset ≤ rf2.line_offset
              exact (List.pairwise_cons.mp h4).1 rf2 hrf2
            · show rf.line_offset ≤ L
              exact h5 rf (List.mem_cons_self rf raw2)
          · intro rf2 hrf2
            exact h5 rf2 (List.mem_cons_of_mem rf hrf2)
        · obtain ⟨hlast, hmono, hcl⟩ :
              (st.gof.getLast?.map (fun g => g.2.2.2) = some c.2.1
                ∨ st.gof = [])
              ∧ (∀ rf2 ∈ rf :: raw2, c.2.1 ≤ rf2.line_offset)
              ∧ c.2.1 ≤ L := by rw [hc] at h3; exact h3
          have hg : (gofStep fmap st rf).gof
              = st.gof ++ [(c.1, c.2.2, c.2.1, rf.line_offset)] := by
            rw [gofStep, if_pos hr]
            show (match st.curRoot with
              | some c2 => st.gof ++ [(c2.1, c2.2.2, c2.2.1, rf.line_offset)]
              | none => st.gof) = _
            rw [hc]
          have hcur : (gofStep fmap st rf).curRoot
              = some (fidOf fmap rf, rf.line_offset,
                  (listIdxOf rf.seqid st.seqids).getD st.seqids.length) := by
            rw [gofStep, if_pos hr]
          refine ih (gofStep fmap st rf) L ?_ ?_ ?_
            (List.pairwise_cons.mp h4).2 ?_
          · rw [hg, List.chain'_append]
            refine ⟨h1, List.chain'_singleton _, ?_⟩
            intro x hx y hy
            rcases hlast with hl | hemp
            · rw [Option.mem_def] at hx
              rw [hx] at hl
              injection hl with he
              rw [Option.mem_def, List.head?_cons] at hy
              injection hy with hy2
              show x.2.2.2 = y.2.2.1
              rw [← hy2]
              exact he
            · rw [hemp, List.getLast?_nil] at hx
              simp at hx
          · rw [hg]
            intro g hg2
            rcases List.mem_append.mp hg2 with h0 | h0
            · exact h2 g h0
            · rw [List.mem_singleton] at h0
              subst h0
              constructor
              · show c.2.1 ≤ rf.line_offset
                exact hmono rf (List.mem_cons_self rf raw2)
              · show rf.line_offset ≤ L
                exact h5 rf (List.mem_cons_self rf raw2)
          · rw [hcur]
            refine ⟨Or.inl ?_, ?_, ?_⟩
            · rw [hg, List.getLast?_concat]
              rfl
            · intro rf2 hrf2
              show rf.line_offset ≤ rf2.line_offset
              exact (List.pairwise_cons.mp h4).1 rf2 hrf2
            · show rf.line_offset ≤ L
              exact h5 rf (List.mem_cons_self rf raw2)
          · intro rf2 hrf2
            exact h5 rf2 (List.mem_cons_of_mem rf hrf2)
      · have hst : gofStep fmap st rf = st := by rw [gofStep, if_neg hr]
        rw [hst]
        refine ih st L h1 h2 ?_ (List.pairwise_cons.mp h4).2 ?_
        · rcases hc : st.curRoot with _ | c
          · have h3q : st.gof = [] := by rw [hc] at h3; exact h3
            exact h3q
          · obtain ⟨hlast, hmono, hcl⟩ :
                (st.gof.getLast?.map (fun g => g.2.2.2) = some c.2.1
                  ∨ st.gof = [])
                ∧ (∀ rf2 ∈ rf :: raw2, c.2.1 ≤ rf2.line_offset)
                ∧ c.2.1 ≤ L := by rw [hc] at h3; exact h3
            exact ⟨hlast,
              fun rf2 hrf2 => hmono rf2 (List.mem_cons_of_mem rf hrf2), hcl⟩
        · intro rf2 hrf2
          exact h5 rf2 (List.mem_cons_of_mem rf hrf2)


/-- A contiguous chain of blocks whose last block ends at `L` covers every
position from the first block's start up to `L`. -/
theorem chain_cover :
    ∀ (gs : List (Nat × Nat × Nat × Nat)) (L x : Nat),
    List.Chain' gofContig gs →
    gs.getLast?.map (fun g => g.2.2.2) = some L →
    ∀ g0, gs.head? = some g0 → g0.2.2.1 ≤ x → x < L →
    ∃ g ∈ gs, g.2.2.1 ≤ x ∧ x < g.2.2.2 := by
  intro gs
  induction gs with
  | nil =>
      intro L x _ hlast
      rw [List.getLast?_nil] at hlast
      simp at hlast
  | cons g rest ih =>
      intro L x hch hlast g0 hhead hge hlt
      have hg0 : g = g0 := by
        rw [List.head?_cons] at hhead
        injection hhead
      subst hg0
      rcases rest with _ | ⟨g2, rest2⟩
      · have hL : g.2.2.2 = L := by
          have h1 : ([g] : List (Nat × Nat × Nat × Nat)).getLast? = some g :=
            rfl
          rw [h1] at hlast
          injection hlast
        exact ⟨g, List.mem_singleton_self g, hge, by rw [hL]; exact hlt⟩
      · by_cases hx : x < g.2.2.2
        · exact ⟨g, List.mem_cons_self g (g2 :: rest2), hge, hx⟩
        · have hR : gofContig g g2 := (List.chain'_cons.mp hch).1
          have hch2 : List.Chain' gofContig (g2 :: rest2) :=
            (List.chain'_cons.mp hch).2
          have hlast2 : (g2 :: rest2).getLast?.map (fun g => g.2.2.2)
              = some L := by
            rw [List.getLast?_cons_cons] at hlast
            exact hlast
          have hge2 : g2.2.2.1 ≤ x := by
            have he : g.2.2.2 = g2.2.2.1 := hR
            omega
          obtain ⟨g3, hmem, hp3⟩ :=
            ih L x hch2 hlast2 g2 rfl hge2 hlt
          exact ⟨g3, List.mem_cons_of_mem g hmem, hp3⟩


/-- C8: for every GFF input accepted by the builder, the `.gof` records are
contiguous back-to-back in record order (each record's end offset equals the
next record's start offset), every record's byte range lies within the file,
the last record ends exactly at the file size, and every byte position from
the FIRST record's start offset up to the end of the file lies inside some
recorded range.  The uncovered complement is therefore exactly the byte
prefix before the first root's line — and that prefix is NOT restricted to
comments, blank lines and skipped types: a kept feature line that precedes
the first root falls in it (see the counterexample). -/
theorem c8_gof_blocks (attrKey skipTypesStr : String) (lines : List String)
    (a : Artifacts) (h : buildIndex attrKey skipTypesStr lines = .ok a) :
    List.Chain' gofContig a.gof ∧
    (∀ g ∈ a.gof, g.2.2.1 ≤ g.2.2.2 ∧ g.2.2.2 ≤ fileSize lines) ∧
    (a.gof.getLast?.map (fun g => g.2.2.2) = some (fileSize lines)
      ∨ a.gof = []) ∧
    (∀ g0, a.gof.head? = some g0 → ∀ x, g0.2.2.1 ≤ x → x < fileSize lines →
      ∃ g ∈ a.gof, g.2.2.1 ≤ x ∧ x < g.2.2.2) := by
  rw [buildIndex, buildIndexO] at h
  rcases hp : parseGff attrKey skipTypesStr lines with e | raw
  · rw [hp] at h
    have h2 : (Except.error e : Except String Artifacts) = Except.ok a := h
    exact Except.noConfusion h2
  · rw [hp] at h
    have h2 : Except.ok (buildArtifactsWith
        (fun k => oLookup (featureMapO (fun _ => 0) raw) k)
        (a2fFoldO (fun _ => 0) (raw.map (fun rf => rf.attr)))
        attrKey raw (fileSize lines)) = Except.ok a := h
    injection h2 with h3
    subst h3
    have hp2 : parseGffGo attrKey
        ((splitCommas skipTypesStr.data).map String.mk) 0 lines
        = .ok raw := hp
    obtain ⟨hoffb, hpw⟩ := parseGffGo_offsets attrKey
      ((splitCommas skipTypesStr.data).map String.mk) lines 0 raw hp2
    obtain ⟨hch, hbnd, hlst⟩ := gofFold_inv
      (fun k => oLookup (featureMapO (fun _ => 0) raw) k)
      raw ⟨[], [], none, []⟩ (fileSize lines)
      List.chain'_nil
      (fun g hg => absurd hg (List.not_mem_nil g))
      rfl
      (hpw.imp fun hab => Nat.le_of_lt hab)
      (fun rf hrf => by
        have h6 := (hoffb rf hrf).2
        rw [Nat.zero_add] at h6
        exact Nat.le_of_lt h6)
    refine ⟨hch, hbnd, hlst, ?_⟩
    intro g0 hh x hx hxL
    rcases hlst with hl | hemp
    · exact chain_cover _ (fileSize lines) x hch hl g0 hh hx hxL
    · have hh2 : (finishGof (List.foldl
          (gofStep (fun k => oLookup (featureMapO (fun _ => 0) raw) k))
          ⟨[], [], none, []⟩ raw) (fileSize lines)).head? = some g0 := hh
      rw [hemp] at hh2
      simp at hh2

def c8exLines : List String := ["chr1\t.\tgene\t1\t10\t.\t+\t.\tID=g1"]

def c8exA : Artifacts :=
  (buildIndex "x" "" c8exLines).toOption.getD ⟨[], [], [], [], [], [], []⟩

theorem c8_gof_blocks_witness :
    buildIndex "x" "" c8exLines = Except.ok c8exA ∧
    (List.Chain' gofContig c8exA.gof ∧
      (∀ g ∈ c8exA.gof, g.2.2.1 ≤ g.2.2.2 ∧ g.2.2.2 ≤ fileSize c8exLines) ∧
      (c8exA.gof.getLast?.map (fun g => g.2.2.2) = some (fileSize c8exLines)
        ∨ c8exA.gof = []) ∧
      (∀ g0, c8exA.gof.head? = some g0 →
        ∀ x, g0.2.2.1 ≤ x → x < fileSize c8exLines →
        ∃ g ∈ c8exA.gof, g.2.2.1 ≤ x ∧ x < g.2.2.2)) :=
  ⟨by rfl, c8_gof_blocks "x" "" c8exLines c8exA (by rfl)⟩

def c8cexLines : List String :=
  ["chr1\t.\tmRNA\t1\t10\t.\t+\t.\tID=m1;Parent=g1",
   "chr1\t.\tgene\t1\t10\t.\t+\t.\tID=g1"]

/-- C8 counterexample: a kept (non-comment, non-blank, non-skipped) feature
line that precedes the first root is NOT inside the block of any root.  The
`mRNA` line (a child of the later `gene` root) sits at byte offset `0` and is
kept by the first pass (first conjunct: kept line offsets are `[0, 39]`), yet
the single `.gof` record is `(fid 1, sid 0, start 39, end 68)` (second
conjunct), and no record covers byte `0` (third conjunct).  Hence the `.gof`
ranges' complement contains a kept feature line, contradicting the claim. -/
theorem c8_kept_line_before_first_root_uncovered :
    (parseGff "x" "" c8cexLines).toOption.map
        (fun raw => raw.map (fun rf => rf.line_offset)) = some [0, 39] ∧
    (buildIndex "x" "" c8cexLines).toOption.map (fun a => a.gof)
        = some [(1, 0, 39, 68)] ∧
    (buildIndex "x" "" c8cexLines).toOption.map (fun a =>
        a.gof.filter (fun g => decide (g.2.2.1 ≤ 0 ∧ 0 < g.2.2.2)))
        = some [] :=
  ⟨rfl, rfl, rfl⟩


end GFFx
